import Mathlib

/-! CC-MapReducer: an anagram finder in three stages.

A shallow embedding of the three programs of the repository

* `mapper.cpp`   : text file → one record line `<signature>: <token>` per kept word,
* `shuffler.cpp` : record lines → five bucket files,
* `reducer.cpp`  : one bucket file → report lines `<signature>: { t1, t2 }`,

in both of their variants (the flat layout, which hashes every line into one of five
buckets and reduces bucket 1, and the directory layout, which routes every line to
bucket 0 and reduces bucket 0).

Modelling conventions.

* A `std::string` is a `List Char`.  All comparisons the programs make on characters
  (`is_letter`, `tolower`, `sort`, the `std::set<string>` order) are comparisons of
  character codes, and the order of code points is the order of the encoded bytes.
  Positions in a string (`find`, `substr`) count characters; they are the byte
  positions of the program on ASCII text, to which the statements on arbitrary lines
  are restricted.
* A file is the text it holds; `none` stands for a file that cannot be opened.  An
  output stream is the list of lines written to it, each one terminated by `endl`.
* Loops that read from a stream carry a fuel argument that the callers set to the
  length of the stream, which is shown to be enough.
* `std::hash<string>` and the iteration order of `std::unordered_map` are not fixed by
  the C++ standard: both are parameters of the embedding.
* An uncaught `std::out_of_range` is the result `none`.
-/

namespace MapReducer

/-- A `std::string`. -/
abbrev Str := List Char

/-- A file on disk: its content, or `none` when it cannot be opened. -/
abbrev File := Option Str

/-! ## Standard library pieces -/

/-- Models `std::string::npos`, the largest `size_t`. -/
def npos : Nat := 2 ^ 64 - 1

/-- Models `isspace` in the classic locale, the separator set of `operator>>`. -/
def isspace (c : Char) : Bool :=
  c = ' ' || c = '\t' || c = '\n' || c = Char.ofNat 11 || c = Char.ofNat 12 || c = '\r'

/-- Models `::tolower` in the classic locale. -/
def tolower (c : Char) : Char :=
  if 'A' ≤ c ∧ c ≤ 'Z' then Char.ofNat (c.toNat + 32) else c

/-- Models `std::sort` on the characters of a string: the ascending rearrangement. -/
def sort (s : Str) : Str := s.insertionSort (· ≤ ·)

/-- Models `getline(input, line, delim)`: fails on an exhausted stream, otherwise reads up to
the delimiter, which it consumes.  Returns the line and the rest of the stream. -/
def getline (delim : Char) (s : Str) : Option (Str × Str) :=
  if s = [] then none
  else some (s.takeWhile (fun c => c != delim), (s.dropWhile (fun c => c != delim)).drop 1)

/-- Models `while (getline(input, line, delim))`, collecting the lines read. -/
def getlines (delim : Char) : Nat → Str → List Str
  | 0, _ => []
  | fuel + 1, s =>
    match getline delim s with
    | none => []
    | some (line, rest) => line :: getlines delim fuel rest

/-- All the lines of a file, as a `while (getline(input, line))` loop sees them; a file
that cannot be opened yields no line. -/
def file_lines (f : File) : List Str :=
  match f with
  | none => []
  | some text => getlines '\n' text.length text

/-- The text of a stream to which the given lines were written with `<< endl`. -/
def written (lines : List Str) : Str :=
  (lines.map (fun l => l ++ ['\n'])).flatten

/-- Models `words >> word`: skips leading white space and reads up to the next white space;
fails when no character is left.  Returns the word and the rest of the stream. -/
def extract (s : Str) : Option (Str × Str) :=
  let s1 := s.dropWhile isspace
  if s1 = [] then none
  else some (s1.takeWhile (fun c => !isspace c), s1.dropWhile (fun c => !isspace c))

/-- Models `line.find(c)`: the index of the first occurrence; `none` stands for the result
`npos` when there is no occurrence. -/
def find (line : Str) (c : Char) : Option Nat :=
  if line.indexOf c < line.length then some (line.indexOf c) else none

/-- Models `line.substr(pos, n)`, where `n = none` is the count `npos`: throws
`std::out_of_range` when `pos > size()`, otherwise copies up to `n` characters. -/
def substr (line : Str) (pos : Nat) (n : Option Nat) : Option Str :=
  if pos > line.length then none
  else
    match n with
    | some n => some ((line.drop pos).take n)
    | none => some (line.drop pos)

/-- Models `line.find(':') + 2` in `size_t` arithmetic: an index into a string is below
`max_size()`, so the sum wraps around only when `find` returned `npos`. -/
def find_plus_two (line : Str) : Nat :=
  match find line ':' with
  | some i => i + 2
  | none => (npos + 2) % 2 ^ 64

/-- Models `operator<` of `std::string`: lexicographic comparison of the characters. -/
def str_lt : Str → Str → Bool
  | [], [] => false
  | [], _ :: _ => true
  | _ :: _, [] => false
  | a :: as, b :: bs => if a < b then true else if b < a then false else str_lt as bs

/-- Models `std::set<string>::insert` on the ascending list of the members. -/
def set_insert (v : Str) : List Str → List Str
  | [] => [v]
  | x :: xs =>
    if str_lt v x then v :: x :: xs
    else if str_lt x v then x :: set_insert v xs
    else x :: xs

/-! ## mapper.cpp -/

/-- Models `is_letter` of mapper.cpp. -/
def is_letter (c : Char) : Bool :=
  (decide ('a' ≤ c) && decide (c ≤ 'z')) || (decide ('A' ≤ c) && decide (c ≤ 'Z'))

/-- Models `read_stop_words`: the entries of the stop-word file, split at commas. -/
def read_stop_words (f : File) : List Str :=
  match f with
  | none => []
  | some text => getlines ',' text.length text

/-- The body of the inner loop of `read_from_file`: the lines written for one raw word
(none or one). -/
def map_word (stop_words : List Str) (word : Str) : List Str :=
  let filtered := (word.filter is_letter).map tolower
  if filtered.length != 0 && !(stop_words.contains filtered) then
    let ordered := sort filtered
    [ordered ++ [':', ' '] ++ filtered]
  else []

/-- Models `while (words >> word)` of `read_from_file`. -/
def map_words (stop_words : List Str) : Nat → Str → List Str
  | 0, _ => []
  | fuel + 1, words =>
    match extract words with
    | none => []
    | some (word, rest) => map_word stop_words word ++ map_words stop_words fuel rest

/-- The body of the outer loop of `read_from_file`: the lines written for one line. -/
def map_line (stop_words : List Str) (line : Str) : List Str :=
  map_words stop_words line.length line

/-- Models `read_from_file` of mapper.cpp (both variants differ in the file names only): the
lines written to the `.map` file.  A source that cannot be opened ends the outer loop
at once, and the output is created all the same. -/
def mapper_read_from_file (input : File) (stop_words : List Str) : List Str :=
  ((file_lines input).map (map_line stop_words)).flatten

/-! ## shuffler.cpp -/

/-- Models `outputs[output_idx] << line << endl`; `none` when the index is out of range. -/
def append_at (outputs : List (List Str)) (idx : Nat) (line : Str) : Option (List (List Str)) :=
  if idx < outputs.length then some (outputs.modify (fun o => o ++ [line]) idx) else none

/-- The loop of `read_from_file` of shuffler.cpp, `route` being the expression that
initialises `output_idx`. -/
def shuffle_loop (route : Str → Nat) : List Str → List (List Str) → Option (List (List Str))
  | [], outputs => some outputs
  | line :: rest, outputs =>
    match append_at outputs (route line) line with
    | none => none
    | some outputs1 => shuffle_loop route rest outputs1

/-- Models `read_from_file` of src/shuffler.cpp: `output_idx = hash(line) % 5`. -/
def shuffler_read_from_file (hash : Str → Nat) (input : File) (outputs : List (List Str)) :
    Option (List (List Str)) :=
  shuffle_loop (fun line => hash line % 5) (file_lines input) outputs

/-- Models `read_from_file` of src/C++ version/shuffler.cpp: `output_idx = 0`. -/
def shuffler0_read_from_file (input : File) (outputs : List (List Str)) :
    Option (List (List Str)) :=
  shuffle_loop (fun _ => 0) (file_lines input) outputs

/-- The five output streams `main` opens, `.shuf0` to `.shuf4`. -/
def fresh_outputs : List (List Str) := List.replicate 5 []

/-- Models `main` of src/shuffler.cpp: the lines of the five bucket files. -/
def shuffler (hash : Str → Nat) (input : File) : Option (List (List Str)) :=
  shuffler_read_from_file hash input fresh_outputs

/-- Models `main` of src/C++ version/shuffler.cpp. -/
def shuffler0 (input : File) : Option (List (List Str)) :=
  shuffler0_read_from_file input fresh_outputs

/-! ## reducer.cpp -/

/-- The `std::unordered_map<string, set<string>>` of `reduce`: its entries, listed in
the order in which their keys were first inserted; each `std::set` is the ascending
list of its members. -/
abbrev Map := List (Str × List Str)

/-- How a range-for loop walks an `unordered_map`: in an order the standard leaves
open, visiting every entry once. -/
structure Iteration where
  /-- The entries in the order of the walk. -/
  order : Map → Map
  /-- Every entry is visited exactly once. -/
  each_once : ∀ m, (order m).Perm m

/-- Models `map[key] = s`: replaces the set stored under `key`, or appends a new entry. -/
def map_assign (key : Str) (s : List Str) : Map → Map
  | [] => [(key, s)]
  | (k, x) :: rest => if k = key then (k, s) :: rest else (k, x) :: map_assign key s rest

/-- The set `map[key]` refers to. -/
def map_at (m : Map) (key : Str) : List Str := (m.lookup key).getD []

/-- The two `substr` calls of the reading loop: `key` is the text before the first colon
and `value` the text from two characters after it; `none` when `substr` throws. -/
def parse_line (line : Str) : Option (Str × Str) :=
  match substr line 0 (find line ':'), substr line (find_plus_two line) none with
  | some key, some value => some (key, value)
  | _, _ => none

/-- The two map statements of the reading loop:
`if (map.find(key) == map.end()) map[key] = set<string>(); map[key].insert(value);`. -/
def map_add (m : Map) (key value : Str) : Map :=
  let m1 := if m.lookup key = none then map_assign key [] m else m
  map_assign key (set_insert value (map_at m1 key)) m1

/-- The body of the reading loop of `reduce`, for one line. -/
def reduce_step (m : Map) (line : Str) : Option Map :=
  match parse_line line with
  | some (key, value) => some (map_add m key value)
  | none => none

/-- The reading loop of `reduce`. -/
def reduce_read : List Str → Map → Option Map
  | [], m => some m
  | line :: rest, m =>
    match reduce_step m line with
    | none => none
    | some m1 => reduce_read rest m1

/-- The inner writing loop of `reduce` over the members `vs` still to be written of the
set `set`: each member, followed by a comma unless it equals the last member. -/
def write_members (set : List Str) : List Str → Str
  | [] => []
  | v :: vs =>
    v ++ (if some v != set.getLast? then [',', ' '] else []) ++ write_members set vs

/-- The body of the outer writing loop of `reduce`: the lines written for one entry
(none or one). -/
def write_entry (p : Str × List Str) : List Str :=
  if p.2.length > 1 then
    [p.1 ++ [':', ' ', '{', ' '] ++ write_members p.2 p.2 ++ [' ', '}']]
  else []

/-- The writing loop of `reduce`. -/
def reduce_write (it : Iteration) (m : Map) : List Str :=
  ((it.order m).map write_entry).flatten

/-- The lines `reduce` writes to the `.red` file from the lines of its bucket; `none`
when `substr` throws while reading. -/
def reduce_lines (it : Iteration) (lines : List Str) : Option (List Str) :=
  (reduce_read lines []).map (reduce_write it)

/-- Models `reduce` of reducer.cpp, given the bucket file that it opens (`.shuf1` in the flat
layout, `.shuf0` in the directory layout). -/
def reduce (it : Iteration) (bucket : File) : Option (List Str) :=
  reduce_lines it (file_lines bucket)

/-! ## The pipelines -/

/-- The flat-layout programs run one after the other: src/mapper.cpp, src/shuffler.cpp,
then src/reducer.cpp on `.shuf1`. -/
def pipeline_hash (it : Iteration) (hash : Str → Nat) (source : File) (stop_words : List Str) :
    Option (List Str) :=
  match shuffler hash (some (written (mapper_read_from_file source stop_words))) with
  | none => none
  | some outputs => reduce it (some (written (outputs.getD 1 [])))

/-- The directory-layout programs run one after the other: src/src/mapper.cpp,
src/C++ version/shuffler.cpp, then src/C++ version/reducer.cpp on `.shuf0`. -/
def pipeline_fixed (it : Iteration) (source : File) (stop_words : List Str) :
    Option (List Str) :=
  match shuffler0 (some (written (mapper_read_from_file source stop_words))) with
  | none => none
  | some outputs => reduce it (some (written (outputs.getD 0 [])))

/-- A sample string hash (Bernstein's `h * 33 + c`, started at 5381) with 64-bit
`size_t` arithmetic. -/
def djb2 (s : Str) : Nat :=
  s.foldl (fun h c => (h * 33 + c.toNat) % 2 ^ 64) 5381

/-- The walk that follows the order of insertion. -/
def oldest_first : Iteration := ⟨id, fun _ => List.Perm.refl _⟩

/-- The walk that visits the most recently inserted key first. -/
def newest_first : Iteration := ⟨List.reverse, fun m => List.reverse_perm m⟩

/-! ## Vocabulary of the specification -/

/-- A string of lowercase ASCII letters only. -/
def Lowercase (s : Str) : Prop := ∀ c ∈ s, 'a' ≤ c ∧ c ≤ 'z'

instance : DecidablePred Lowercase := fun s => by
  unfold Lowercase
  infer_instance

/-- The record line `<signature>: <token>`. -/
def record (sig tok : Str) : Str := sig ++ [':', ' '] ++ tok

/-- A well-formed record line: signature and token are non-empty strings of lowercase
letters. -/
def WellFormed (line : Str) : Prop :=
  ∃ sig tok, sig ≠ [] ∧ tok ≠ [] ∧ Lowercase sig ∧ Lowercase tok ∧ line = record sig tok

/-- The report line `<signature>: { t1, t2, ..., tk }`. -/
def group_line (sig : Str) (toks : List Str) : Str :=
  sig ++ [':', ' ', '{', ' '] ++ List.intercalate [',', ' '] toks ++ [' ', '}']

/-- The signature a line is about: the text before its first colon. -/
def line_signature (line : Str) : Str := line.takeWhile (fun c => c != ':')

/-- The report has a line for the signature. -/
def HasLine (report : List Str) (sig : Str) : Prop :=
  ∃ line ∈ report, line_signature line = sig

/-- The normal form of a raw word: every character other than an ASCII letter deleted,
the rest lowercased. -/
def normal_form (word : Str) : Str := (word.filter Char.isAlpha).map Char.toLower

/-- The raw words of a text: its maximal runs of characters other than white space. -/
def raw_words (text : Str) : List Str := (text.splitOnP isspace).filter (fun w => w ≠ [])

/-- The tokens of a text: the non-empty normal forms of its raw words that are not stop
words, in order. -/
def tokens (stop_words : List Str) (text : Str) : List Str :=
  ((raw_words text).map normal_form).filter (fun t => t ≠ [] ∧ t ∉ stop_words)

/-- Strictly ascending in the order of `std::string`. -/
def Ascending (s : List Str) : Prop := s.Pairwise (fun a b => str_lt a b = true)

/-- The token `v` is a member of a set stored under the key `k`. -/
def Holds (m : Map) (k v : Str) : Prop := ∃ s, (k, s) ∈ m ∧ v ∈ s

/-- The shape of every map `reduce` builds: no key twice, every set strictly ascending
and non-empty. -/
structure Good (m : Map) : Prop where
  /-- No key occurs twice. -/
  keys : (m.map Prod.fst).Nodup
  /-- Every set is strictly ascending. -/
  asc : ∀ p ∈ m, Ascending p.2
  /-- Every set has a member. -/
  ne : ∀ p ∈ m, p.2 ≠ []

/-- The bucket with every repeated occurrence of a line removed. -/
def first_occurrences : List Str → List Str
  | [] => []
  | l :: ls => l :: (first_occurrences ls).filter (fun x => x ≠ l)

/-- The normalization of the mapper: the value of `filtered` in `read_from_file` once
`copy_if` and `transform` have run on the raw word. -/
def normalize (word : Str) : Str := (word.filter is_letter).map tolower

/-- A line that lacks the separator: it has no colon at all, or no character after its
first colon. -/
def lacks_separator (line : Str) : Bool :=
  match find line ':' with
  | none => true
  | some i => decide (line.length ≤ i + 1)

/-- A line on which neither `substr` call of `reduce` throws: it is not empty and, when
it has a colon, at least one character follows the first colon. -/
def Readable (line : Str) : Prop :=
  match find line ':' with
  | none => line ≠ []
  | some i => i + 2 ≤ line.length

/-- A line of ASCII characters only, each of them one byte of the `std::string`. -/
def Ascii (line : Str) : Prop := ∀ c ∈ line, c.toNat < 128

instance : DecidablePred Ascii := fun s => by
  unfold Ascii
  infer_instance

instance : DecidablePred Readable := fun s => by
  unfold Readable
  cases find s ':' <;> simp only <;> infer_instance

/-- The lines of a report sorted by their signatures, in the order of `std::string`. -/
def sort_by_signature (report : List Str) : List Str :=
  report.insertionSort (fun a b => str_lt (line_signature b) (line_signature a) = false)

/-- The entries of a stop-word list that are non-empty strings of lowercase letters. -/
def normalized_entries (stop_words : List Str) : List Str :=
  stop_words.filter (fun s => s ≠ [] ∧ Lowercase s)

end MapReducer


namespace MapReducer

/-! ## Characters and signatures -/

theorem char_le_iff (a b : Char) : a ≤ b ↔ a.toNat ≤ b.toNat := by
  rw [Char.le_def]; rfl

theorem is_letter_eq_isAlpha (c : Char) : is_letter c = c.isAlpha := by
  rw [Bool.eq_iff_iff]
  simp [is_letter, Char.isAlpha, Char.isUpper, Char.isLower, char_le_iff, UInt32.le_def,
    BitVec.le_def, Char.toNat, UInt32.toNat]
  omega

theorem tolower_eq_toLower (c : Char) : tolower c = c.toLower := by
  simp only [tolower, Char.toLower, char_le_iff]
  rfl

theorem lower_of_upper (n : Nat) (h1 : 65 ≤ n) (h2 : n ≤ 90) :
    'a' ≤ Char.ofNat (n + 32) ∧ Char.ofNat (n + 32) ≤ 'z' := by
  interval_cases n <;> decide

theorem tolower_lower (c : Char) (h : is_letter c = true) :
    'a' ≤ tolower c ∧ tolower c ≤ 'z' := by
  unfold tolower
  split
  · rename_i hu
    rw [char_le_iff, char_le_iff] at hu
    exact lower_of_upper c.toNat hu.1 hu.2
  · rename_i hu
    simp only [is_letter, Bool.or_eq_true, Bool.and_eq_true, decide_eq_true_eq] at h
    rcases h with h | h
    · exact h
    · exact absurd h hu

theorem lowercase_filtered (word : Str) : Lowercase ((word.filter is_letter).map tolower) := by
  intro c hc
  rw [List.mem_map] at hc
  obtain ⟨d, hd, rfl⟩ := hc
  exact tolower_lower d (List.mem_filter.mp hd).2

theorem normal_form_eq (word : Str) :
    (word.filter is_letter).map tolower = normal_form word := by
  have h1 : is_letter = Char.isAlpha := funext is_letter_eq_isAlpha
  have h2 : tolower = Char.toLower := funext tolower_eq_toLower
  rw [h1, h2, normal_form]

theorem sort_perm (s : Str) : (sort s).Perm s := List.perm_insertionSort _ s

theorem sort_sorted (s : Str) : (sort s).Sorted (· ≤ ·) := List.sorted_insertionSort _ s

theorem sort_eq_iff (a b : Str) : sort a = sort b ↔ a.Perm b := by
  constructor
  · intro h
    exact ((sort_perm a).symm.trans (h ▸ List.Perm.refl _)).trans (sort_perm b)
  · intro h
    exact List.eq_of_perm_of_sorted (((sort_perm a).trans h).trans (sort_perm b).symm)
      (sort_sorted a) (sort_sorted b)

theorem lowercase_sort (s : Str) (h : Lowercase s) : Lowercase (sort s) :=
  fun c hc => h c ((sort_perm s).mem_iff.mp hc)

/-! ## The mapper on one line -/

theorem map_word_eq (stop_words : List Str) (word : Str) :
    map_word stop_words word =
      if normal_form word ≠ [] ∧ normal_form word ∉ stop_words then
        [record (sort (normal_form word)) (normal_form word)]
      else [] := by
  unfold map_word
  simp only [normal_form_eq, record]
  by_cases h1 : normal_form word = [] <;> by_cases h2 : normal_form word ∈ stop_words <;>
    simp [h1, h2]

theorem raw_words_nil : raw_words [] = [] := by
  simp [raw_words, List.splitOnP_nil]

theorem raw_words_cons_space (c : Char) (s : Str) (h : isspace c = true) :
    raw_words (c :: s) = raw_words s := by
  simp [raw_words, List.splitOnP_cons, h]

theorem raw_words_dropWhile (s : Str) : raw_words (s.dropWhile isspace) = raw_words s := by
  induction s with
  | nil => rfl
  | cons c s ih =>
    by_cases h : isspace c = true
    · rw [List.dropWhile_cons_of_pos h, ih, raw_words_cons_space c s h]
    · rw [List.dropWhile_cons_of_neg h]

theorem splitOnP_append_word (w r : Str) (hw : ∀ c ∈ w, isspace c = false) :
    List.splitOnP isspace (w ++ r) =
      List.modifyHead (fun x => w ++ x) (List.splitOnP isspace r) := by
  induction w with
  | nil =>
    cases h : List.splitOnP isspace r with
    | nil => exact absurd h (List.splitOnP_ne_nil _ _)
    | cons a l => simp [h]
  | cons x w ih =>
    have hx : isspace x = false := hw x (List.mem_cons_self _ _)
    rw [List.cons_append, List.splitOnP_cons, ih (fun c hc => hw c (List.mem_cons_of_mem _ hc))]
    simp only [hx, Bool.false_eq_true, if_false, List.modifyHead_modifyHead]
    rfl

theorem raw_words_word_append (w r : Str) (hw : ∀ c ∈ w, isspace c = false) (hne : w ≠ [])
    (hr : r = [] ∨ ∃ d r1, r = d :: r1 ∧ isspace d = true) :
    raw_words (w ++ r) = w :: raw_words r := by
  unfold raw_words
  rw [splitOnP_append_word w r hw]
  rcases hr with rfl | ⟨d, r1, rfl, hd⟩
  · simp [List.splitOnP_nil, hne]
  · simp [List.splitOnP_cons, hd, hne]

theorem dropWhile_head (q : Char → Bool) (s : Str) :
    s.dropWhile q = [] ∨ ∃ d r, s.dropWhile q = d :: r ∧ q d = false := by
  induction s with
  | nil => exact Or.inl rfl
  | cons c s ih =>
    by_cases h : q c = true
    · rw [List.dropWhile_cons_of_pos h]; exact ih
    · rw [List.dropWhile_cons_of_neg h]
      exact Or.inr ⟨c, s, rfl, by simpa using h⟩

theorem extract_none (s : Str) (h : extract s = none) : raw_words s = [] := by
  unfold extract at h
  simp only at h
  split at h
  · rename_i h1
    rw [← raw_words_dropWhile, h1, raw_words_nil]
  · exact absurd h (by simp)

theorem extract_some (s w r : Str) (h : extract s = some (w, r)) :
    raw_words s = w :: raw_words r ∧ r.length < s.length := by
  unfold extract at h
  simp only at h
  split at h
  · exact absurd h (by simp)
  · rename_i h1
    simp only [Option.some.injEq, Prod.mk.injEq] at h
    obtain ⟨hw, hr⟩ := h
    rcases dropWhile_head isspace s with h0 | ⟨d, s1, hd, hsp⟩
    · exact absurd h0 h1
    · have hsplit := List.takeWhile_append_dropWhile (fun c => !isspace c) (s.dropWhile isspace)
      rw [hw, hr] at hsplit
      have hwne : w ≠ [] := by
        rw [← hw, hd]; simp [List.takeWhile_cons, hsp]
      have hwsp : ∀ c ∈ w, isspace c = false := by
        intro c hc
        rw [← hw] at hc
        simpa using List.mem_takeWhile_imp hc
      have hrhead : r = [] ∨ ∃ d r1, r = d :: r1 ∧ isspace d = true := by
        rcases dropWhile_head (fun c => !isspace c) (s.dropWhile isspace) with h2 | ⟨e, r1, h2, he⟩
        · exact Or.inl (hr ▸ h2)
        · exact Or.inr ⟨e, r1, hr ▸ h2, by simpa using he⟩
      constructor
      · rw [← raw_words_dropWhile, ← hsplit]
        exact raw_words_word_append w r hwsp hwne hrhead
      · have hlen : (s.dropWhile isspace).length ≤ s.length :=
          (List.dropWhile_suffix isspace).length_le
        have h3 : (w ++ r).length = (s.dropWhile isspace).length := by rw [hsplit]
        rw [List.length_append] at h3
        have h4 : 0 < w.length := List.length_pos.mpr hwne
        omega

theorem map_words_eq (stop_words : List Str) (fuel : Nat) (s : Str) (h : s.length ≤ fuel) :
    map_words stop_words fuel s = ((raw_words s).map (map_word stop_words)).flatten := by
  induction fuel generalizing s with
  | zero =>
    have hs : s = [] := List.length_eq_zero.mp (Nat.le_zero.mp h)
    subst hs
    simp [map_words, raw_words_nil]
  | succ fuel ih =>
    unfold map_words
    cases hx : extract s with
    | none => simp [extract_none s hx]
    | some p =>
      obtain ⟨w, r⟩ := p
      obtain ⟨h1, h2⟩ := extract_some s w r hx
      simp only
      rw [ih r (by omega), h1]
      simp

theorem flatten_map_ite {α β : Type} (p : α → Prop) [DecidablePred p] (f : α → β)
    (l : List α) :
    (l.map (fun a => if p a then [f a] else [])).flatten = (l.filter (fun a => p a)).map f := by
  induction l with
  | nil => rfl
  | cons a l ih =>
    by_cases h : p a <;> simp [h, ih]

theorem map_line_eq (stop_words : List Str) (line : Str) :
    map_line stop_words line =
      (tokens stop_words line).map (fun t => record (sort t) t) := by
  unfold map_line
  rw [map_words_eq stop_words line.length line (Nat.le_refl _)]
  have h : map_word stop_words = (fun w => if normal_form w ≠ [] ∧ normal_form w ∉ stop_words
      then [record (sort (normal_form w)) (normal_form w)] else []) :=
    funext (map_word_eq stop_words)
  rw [h, tokens, List.filter_map, List.map_map]
  exact flatten_map_ite (fun w => normal_form w ≠ [] ∧ normal_form w ∉ stop_words)
    (fun w => record (sort (normal_form w)) (normal_form w)) (raw_words line)

/-! ## Claims on the mapper -/

/-- C4 (signature equivalence): the signatures the mapper computes for two tokens are
equal exactly when the tokens are rearrangements of each other, and the signature of a
token is an ascending rearrangement of the token. -/
theorem signature_equivalence (a b : Str) :
    (sort a = sort b ↔ a.Perm b) ∧ (sort a).Perm a ∧ (sort a).Sorted (fun x y => x ≤ y) :=
  ⟨sort_eq_iff a b, sort_perm a, sort_sorted a⟩

/-- C5 (tokenizer reference behaviour): the records the mapper writes for a line are, in
order, one per raw word whose normal form is non-empty and is not a stop word, with that
normal form as token; the raw word "don't" gives the token "dont", and words without a
letter give no record. -/
theorem tokenizer_reference :
    (∀ (stop_words : List Str) (line : Str),
      map_line stop_words line =
        (((raw_words line).map normal_form).filter
          (fun t => t ≠ [] ∧ t ∉ stop_words)).map (fun t => record (sort t) t)) ∧
    map_line [] "don't".toList = ["dnot: dont".toList] ∧
    map_line [] "1234 ?!, 56".toList = [] :=
  ⟨fun stop_words line => map_line_eq stop_words line, by decide, by decide⟩

theorem mem_mapper (input : File) (stop_words : List Str) (line : Str)
    (h : line ∈ mapper_read_from_file input stop_words) :
    ∃ w, line = record (sort (normal_form w)) (normal_form w) ∧ normal_form w ≠ [] ∧
      normal_form w ∉ stop_words := by
  unfold mapper_read_from_file at h
  rw [List.mem_flatten] at h
  obtain ⟨ls, hls, hl⟩ := h
  rw [List.mem_map] at hls
  obtain ⟨src, _, rfl⟩ := hls
  rw [map_line_eq, List.mem_map] at hl
  obtain ⟨t, ht, rfl⟩ := hl
  rw [tokens, List.mem_filter, List.mem_map] at ht
  obtain ⟨⟨w, _, rfl⟩, hw⟩ := ht
  simp only [decide_eq_true_eq] at hw
  exact ⟨w, rfl, hw.1, hw.2⟩

/-- C6 (mapper output invariant): every line the mapper writes is `<signature>: <token>`
with a non-empty token of lowercase letters and a signature of lowercase letters that
has the length of the token and is the token sorted ascending. -/
theorem mapper_output_invariant (input : File) (stop_words : List Str) (line : Str)
    (h : line ∈ mapper_read_from_file input stop_words) :
    ∃ sig tok, line = sig ++ ": ".toList ++ tok ∧ tok ≠ [] ∧ Lowercase tok ∧
      Lowercase sig ∧ sig.length = tok.length ∧ sig = sort tok := by
  obtain ⟨w, rfl, hne, _⟩ := mem_mapper input stop_words line h
  have hlow : Lowercase (normal_form w) := normal_form_eq w ▸ lowercase_filtered w
  exact ⟨sort (normal_form w), normal_form w, rfl, hne, hlow, lowercase_sort _ hlow,
    (sort_perm _).length_eq, rfl⟩

/-- The invariant of C6 at the source text "The bat" with the stop word "the". -/
theorem mapper_output_invariant_witness :
    "abt: bat".toList ∈ mapper_read_from_file (some "The bat".toList) ["the".toList] ∧
    ∃ sig tok, "abt: bat".toList = sig ++ ": ".toList ++ tok ∧ tok ≠ [] ∧ Lowercase tok ∧
      Lowercase sig ∧ sig.length = tok.length ∧ sig = sort tok :=
  ⟨by decide, mapper_output_invariant (some "The bat".toList) ["the".toList]
    "abt: bat".toList (by decide)⟩

/-! ## The shuffler -/

theorem getD_modify_append (outputs : List (List Str)) (idx i : Nat) (line : Str) :
    (outputs.modify (fun o => o ++ [line]) idx).getD i [] =
      if idx = i ∧ i < outputs.length then outputs.getD i [] ++ [line]
      else outputs.getD i [] := by
  simp only [List.getD_eq_getElem?_getD, List.getElem?_modify]
  by_cases h : idx = i
  · subst h
    by_cases h2 : idx < outputs.length
    · simp [h2, List.getElem?_eq_getElem h2]
    · simp [h2, List.getElem?_eq_none (Nat.le_of_not_lt h2)]
  · simp [h]

theorem shuffle_loop_eq (route : Str → Nat) (lines : List Str) (outputs : List (List Str))
    (h : ∀ l ∈ lines, route l < outputs.length) :
    shuffle_loop route lines outputs =
      some ((List.range outputs.length).map
        (fun i => outputs.getD i [] ++ lines.filter (fun l => route l = i))) := by
  induction lines generalizing outputs with
  | nil =>
    simp only [shuffle_loop, List.filter_nil, List.append_nil, Option.some.injEq]
    apply List.ext_getElem
    · simp
    · intro i h1 h2
      simp [List.getD_eq_getElem?_getD, List.getElem?_eq_getElem h1]
  | cons line rest ih =>
    have hlt : route line < outputs.length := h line (List.mem_cons_self _ _)
    simp only [shuffle_loop, append_at, hlt, if_true]
    rw [ih _ (fun l hl => by
      rw [List.length_modify]; exact h l (List.mem_cons_of_mem _ hl))]
    rw [List.length_modify]
    congr 1
    apply List.map_congr_left
    intro i hi
    rw [List.mem_range] at hi
    rw [getD_modify_append]
    by_cases hr : route line = i
    · simp [hr, hi, List.filter_cons]
    · simp [hr, List.filter_cons]

theorem count_filter_route {α : Type} [DecidableEq α] (route : α → Nat) (i : Nat) (a : α)
    (lines : List α) :
    (lines.filter (fun l => route l = i)).count a =
      if route a = i then lines.count a else 0 := by
  split
  · rename_i h
    exact List.count_filter (by simpa using h)
  · rename_i h
    exact List.count_eq_zero.mpr (fun hm => h (by simpa using (List.mem_filter.mp hm).2))

/-- C10 (shuffler routing): the shuffler never indexes its five outputs out of range,
and bucket `i` receives exactly the input lines with `hash(line) % 5 = i`, in input
order; so the buckets together hold the input lines with their multiplicities. -/
theorem shuffler_routing (hash : Str → Nat) (input : File) :
    ∃ buckets, shuffler hash input = some buckets ∧ buckets.length = 5 ∧
      (∀ line, hash line % 5 < 5) ∧
      (∀ i, i < 5 →
        buckets.getD i [] = (file_lines input).filter (fun line => hash line % 5 = i)) ∧
      (∀ i, 5 ≤ i → buckets.getD i [] = []) ∧
      (∀ i, (buckets.getD i []).Sublist (file_lines input)) ∧
      buckets.flatten.Perm (file_lines input) := by
  have hlt : ∀ line : Str, hash line % 5 < 5 := fun line => Nat.mod_lt _ (by decide)
  have hrun := shuffle_loop_eq (fun line => hash line % 5) (file_lines input) fresh_outputs
    (fun l _ => hlt l)
  refine ⟨_, hrun, by simp [fresh_outputs], hlt, ?_, ?_, ?_, ?_⟩
  · intro i hi
    interval_cases i <;> simp [fresh_outputs, List.range_succ]
  · intro i hi
    simp [fresh_outputs, List.getD_eq_getElem?_getD, List.getElem?_eq_none, hi]
  · intro i
    by_cases hi : i < 5
    · interval_cases i <;> simp [fresh_outputs, List.range_succ]
    · simp [fresh_outputs, List.getD_eq_getElem?_getD, List.getElem?_eq_none,
        Nat.le_of_not_lt hi]
  · rw [List.perm_iff_count]
    intro a
    have h5 := hlt a
    simp only [fresh_outputs, List.length_replicate, List.range_succ, List.range_zero,
      List.nil_append, List.cons_append, List.map_cons, List.map_nil, List.flatten_cons,
      List.flatten_nil, List.count_append, List.count_nil, List.getD_eq_getElem?_getD,
      count_filter_route]
    generalize hash a % 5 = k at h5
    interval_cases k <;> simp

/-- C1 (partition completeness) at a failing input: the record lines `abt: bat` and
`abt: tab` carry the same signature, and the shuffler, which hashes the whole line,
writes the first to bucket 1 and the second to bucket 0 under the sample hash. -/
theorem partition_splits_signature :
    line_signature "abt: bat".toList = line_signature "abt: tab".toList ∧
    shuffler djb2 (some "abt: bat\nabt: tab\n".toList) =
      some [["abt: tab".toList], ["abt: bat".toList], [], [], []] := by
  decide

/-! ## The order of `std::string` and `std::set` -/

theorem str_lt_irrefl (a : Str) : str_lt a a = false := by
  induction a with
  | nil => rfl
  | cons c a ih => simp [str_lt, ih]

theorem str_lt_connected (a b : Str) (h1 : str_lt a b = false) (h2 : str_lt b a = false) :
    a = b := by
  induction a generalizing b with
  | nil => cases b with
    | nil => rfl
    | cons y b => simp [str_lt] at h1
  | cons x a ih => cases b with
    | nil => simp [str_lt] at h2
    | cons y b =>
      simp only [str_lt] at h1 h2
      rcases lt_trichotomy x y with hxy | hxy | hxy
      · simp [hxy] at h1
      · subst hxy
        simp only [lt_self_iff_false, if_false] at h1 h2
        rw [ih b h1 h2]
      · simp [hxy] at h2

theorem str_lt_trans (a b c : Str) (h1 : str_lt a b = true) (h2 : str_lt b c = true) :
    str_lt a c = true := by
  induction a generalizing b c with
  | nil => cases b <;> cases c <;> simp_all [str_lt]
  | cons x a ih => cases b with
    | nil => simp [str_lt] at h1
    | cons y b => cases c with
      | nil => simp [str_lt] at h2
      | cons z c =>
        simp only [str_lt] at h1 h2 ⊢
        rcases lt_trichotomy x y with hxy | hxy | hxy
        · rcases lt_trichotomy y z with hyz | hyz | hyz
          · simp [lt_trans hxy hyz]
          · subst hyz; simp [hxy]
          · simp [hyz, lt_asymm hyz] at h2
        · subst hxy
          rcases lt_trichotomy x z with hyz | hyz | hyz
          · simp [hyz]
          · subst hyz
            simp only [lt_self_iff_false, if_false] at h1 h2 ⊢
            exact ih b c h1 h2
          · simp [hyz, lt_asymm hyz] at h2
        · simp [hxy, lt_asymm hxy] at h1

theorem str_lt_iff_lt (a b : Str) : str_lt a b = true ↔ a < b := by
  induction a generalizing b with
  | nil =>
    cases b with
    | nil => simp [str_lt]
    | cons y b => simp only [str_lt, true_iff]; exact List.Lex.nil
  | cons x a ih =>
    cases b with
    | nil =>
      simp only [str_lt, Bool.false_eq_true, false_iff]
      intro h
      cases h
    | cons y b =>
      simp only [str_lt]
      rcases lt_trichotomy x y with hxy | hxy | hxy
      · simp only [hxy, if_true, true_iff]
        exact List.Lex.rel hxy
      · subst hxy
        simp only [lt_self_iff_false, if_false, ih b]
        exact (List.Lex.cons_iff).symm
      · simp only [lt_asymm hxy, hxy, if_true, if_false, Bool.false_eq_true, false_iff]
        intro h
        cases h with
        | cons h => exact lt_irrefl _ hxy
        | rel h => exact lt_asymm h hxy

theorem ascending_iff_sorted (s : List Str) : Ascending s ↔ s.Sorted (fun a b => a < b) := by
  unfold Ascending List.Sorted
  constructor <;> intro h <;> refine List.Pairwise.imp ?_ h <;> intro a b hab
  · exact (str_lt_iff_lt a b).mp hab
  · exact (str_lt_iff_lt a b).mpr hab

theorem str_lt_asymm (a b : Str) (h : str_lt a b = true) : str_lt b a = false := by
  cases hb : str_lt b a with
  | false => rfl
  | true =>
    have := str_lt_trans a b a h hb
    rw [str_lt_irrefl] at this
    exact absurd this (by simp)

theorem mem_set_insert (v x : Str) (s : List Str) : x ∈ set_insert v s ↔ x = v ∨ x ∈ s := by
  induction s with
  | nil => simp [set_insert]
  | cons y ys ih =>
    unfold set_insert
    by_cases h1 : str_lt v y = true
    · simp [h1]
    · by_cases h2 : str_lt y v = true
      · simp only [h1, h2, if_true, if_false, List.mem_cons, ih, Bool.false_eq_true]
        tauto
      · have hvy : v = y := str_lt_connected v y (by simpa using h1) (by simpa using h2)
        subst hvy
        simp [h1]

theorem ascending_set_insert (v : Str) (s : List Str) (h : Ascending s) :
    Ascending (set_insert v s) := by
  induction s with
  | nil => simp [set_insert, Ascending]
  | cons y ys ih =>
    unfold Ascending at h ih ⊢
    rw [List.pairwise_cons] at h
    unfold set_insert
    by_cases h1 : str_lt v y = true
    · simp only [h1, if_true]
      refine List.pairwise_cons.mpr ⟨?_, List.pairwise_cons.mpr h⟩
      intro z hz
      rcases List.mem_cons.mp hz with rfl | hz
      · exact h1
      · exact str_lt_trans v y z h1 (h.1 z hz)
    · by_cases h2 : str_lt y v = true
      · simp only [h1, h2, if_true, if_false, Bool.false_eq_true]
        refine List.pairwise_cons.mpr ⟨?_, ih h.2⟩
        intro z hz
        rcases (mem_set_insert v z ys).mp hz with rfl | hz
        · exact h2
        · exact h.1 z hz
      · simp only [h1, h2, if_false, Bool.false_eq_true]
        exact List.pairwise_cons.mpr h

theorem set_insert_of_mem (v : Str) (s : List Str) (h : Ascending s) (hv : v ∈ s) :
    set_insert v s = s := by
  induction s with
  | nil => simp at hv
  | cons y ys ih =>
    unfold Ascending at h ih
    rw [List.pairwise_cons] at h
    unfold set_insert
    rcases List.mem_cons.mp hv with rfl | hv
    · simp [str_lt_irrefl]
    · have h2 : str_lt y v = true := h.1 v hv
      simp [h2, str_lt_asymm y v h2, ih h.2 hv]

theorem ascending_nodup (s : List Str) (h : Ascending s) : s.Nodup := by
  unfold Ascending at h
  refine List.Pairwise.imp ?_ h
  intro a b hab heq
  subst heq
  rw [str_lt_irrefl] at hab
  exact absurd hab (by simp)

theorem ascending_ext (s t : List Str) (hs : Ascending s) (ht : Ascending t)
    (h : ∀ x, x ∈ s ↔ x ∈ t) : s = t := by
  haveI : IsAntisymm Str (fun a b => str_lt a b = true) :=
    ⟨fun a b h1 h2 => by
      have := str_lt_asymm a b h1
      rw [h2] at this
      exact absurd this (by simp)⟩
  exact List.eq_of_perm_of_sorted
    ((List.perm_ext_iff_of_nodup (ascending_nodup s hs) (ascending_nodup t ht)).mpr h) hs ht

/-! ## The map of the reducer -/

theorem map_add_nil (k v : Str) : map_add [] k v = [(k, [v])] := by
  simp [map_add, map_assign, map_at, set_insert]

theorem map_add_cons (a : Str) (s : List Str) (rest : Map) (k v : Str) :
    map_add ((a, s) :: rest) k v =
      if a = k then (a, set_insert v s) :: rest else (a, s) :: map_add rest k v := by
  by_cases h : a = k
  · subst h
    simp [map_add, map_assign, map_at, List.lookup]
  · have h2 : (k == a) = false := by simpa using fun e => h e.symm
    by_cases hl : List.lookup k rest = none
    · simp [map_add, map_assign, map_at, List.lookup, h, h2, hl]
    · simp [map_add, map_assign, map_at, List.lookup, h, h2, hl]

theorem keys_map_add (m : Map) (k v : Str) :
    (map_add m k v).map Prod.fst =
      if k ∈ m.map Prod.fst then m.map Prod.fst else m.map Prod.fst ++ [k] := by
  induction m with
  | nil => simp [map_add_nil]
  | cons p rest ih =>
    obtain ⟨a, s⟩ := p
    rw [map_add_cons]
    by_cases h : a = k
    · simp [h]
    · have h2 : ¬ k = a := fun e => h e.symm
      simp only [h, if_false, List.map_cons, ih, List.mem_cons, h2, false_or]
      split <;> simp

theorem holds_map_add (m : Map) (k v k1 v1 : Str) :
    Holds (map_add m k v) k1 v1 ↔ Holds m k1 v1 ∨ (k1 = k ∧ v1 = v) := by
  induction m with
  | nil =>
    simp only [map_add_nil, Holds, List.mem_singleton, Prod.mk.injEq, List.not_mem_nil,
      false_and, exists_false, false_or]
    constructor
    · rintro ⟨s, ⟨rfl, rfl⟩, h⟩
      exact ⟨rfl, by simpa using h⟩
    · rintro ⟨rfl, rfl⟩
      exact ⟨[v1], ⟨rfl, rfl⟩, by simp⟩
  | cons p rest ih =>
    obtain ⟨a, s⟩ := p
    rw [map_add_cons]
    unfold Holds at ih ⊢
    by_cases h : a = k
    · subst h
      simp only [if_true, List.mem_cons, Prod.mk.injEq]
      constructor
      · rintro ⟨t, (⟨rfl, rfl⟩ | ht), hv⟩
        · rcases (mem_set_insert v v1 s).mp hv with rfl | hv
          · exact Or.inr ⟨rfl, rfl⟩
          · exact Or.inl ⟨s, Or.inl ⟨rfl, rfl⟩, hv⟩
        · exact Or.inl ⟨t, Or.inr ht, hv⟩
      · rintro (⟨t, (⟨rfl, rfl⟩ | ht), hv⟩ | ⟨rfl, rfl⟩)
        · exact ⟨_, Or.inl ⟨rfl, rfl⟩, (mem_set_insert v v1 t).mpr (Or.inr hv)⟩
        · exact ⟨t, Or.inr ht, hv⟩
        · exact ⟨_, Or.inl ⟨rfl, rfl⟩, (mem_set_insert v1 v1 s).mpr (Or.inl rfl)⟩
    · simp only [h, if_false, List.mem_cons, Prod.mk.injEq]
      constructor
      · rintro ⟨t, (⟨rfl, rfl⟩ | ht), hv⟩
        · exact Or.inl ⟨_, Or.inl ⟨rfl, rfl⟩, hv⟩
        · rcases ih.mp ⟨t, ht, hv⟩ with ⟨u, hu, hv⟩ | hr
          · exact Or.inl ⟨u, Or.inr hu, hv⟩
          · exact Or.inr hr
      · rintro (⟨t, (⟨rfl, rfl⟩ | ht), hv⟩ | hr)
        · exact ⟨_, Or.inl ⟨rfl, rfl⟩, hv⟩
        · obtain ⟨u, hu, hv⟩ := ih.mpr (Or.inl ⟨t, ht, hv⟩)
          exact ⟨u, Or.inr hu, hv⟩
        · obtain ⟨u, hu, hv⟩ := ih.mpr (Or.inr hr)
          exact ⟨u, Or.inr hu, hv⟩

theorem sets_map_add (P : List Str → Prop) (hP : ∀ v s, (s = [] ∨ P s) → P (set_insert v s))
    (m : Map) (k v : Str) (h : ∀ p ∈ m, P p.2) : ∀ p ∈ map_add m k v, P p.2 := by
  induction m with
  | nil =>
    intro p hp
    rw [map_add_nil, List.mem_singleton] at hp
    subst hp
    exact hP v [] (Or.inl rfl)
  | cons q rest ih =>
    obtain ⟨a, s⟩ := q
    rw [map_add_cons]
    have hrest : ∀ p ∈ rest, P p.2 := fun p hp => h p (List.mem_cons_of_mem _ hp)
    have hs : P s := h (a, s) (List.mem_cons_self _ _)
    intro p hp
    split at hp
    · rcases List.mem_cons.mp hp with rfl | hp
      · exact hP v s (Or.inr hs)
      · exact hrest p hp
    · rcases List.mem_cons.mp hp with rfl | hp
      · exact hs
      · exact ih hrest p hp

theorem good_nil : Good [] := ⟨by simp, by simp, by simp⟩

theorem good_map_add (m : Map) (k v : Str) (h : Good m) : Good (map_add m k v) := by
  refine ⟨?_, ?_, ?_⟩
  · rw [keys_map_add]
    split
    · exact h.keys
    · rename_i hk
      exact List.Nodup.append h.keys (List.nodup_singleton k) (by simpa using hk)
  · refine sets_map_add Ascending ?_ m k v h.asc
    rintro w s (rfl | hs)
    · simp [set_insert, Ascending]
    · exact ascending_set_insert w s hs
  · refine sets_map_add (fun s => s ≠ []) ?_ m k v h.ne
    intro w s _ he
    have : w ∈ set_insert w s := (mem_set_insert w w s).mpr (Or.inl rfl)
    rw [he] at this
    simp at this

theorem good_unique (m : Map) (h : Good m) (k : Str) (s t : List Str) (hs : (k, s) ∈ m)
    (ht : (k, t) ∈ m) : s = t := by
  have hk := h.keys
  clear h
  induction m with
  | nil => simp at hs
  | cons p rest ih =>
    rw [List.map_cons, List.nodup_cons] at hk
    rcases List.mem_cons.mp hs with e1 | hs <;> rcases List.mem_cons.mp ht with e2 | ht
    · exact (Prod.mk.inj (e1.trans e2.symm)).2
    · rw [← e1] at hk
      exact absurd (List.mem_map_of_mem Prod.fst ht) hk.1
    · rw [← e2] at hk
      exact absurd (List.mem_map_of_mem Prod.fst hs) hk.1
    · exact ih hs ht hk.2

theorem map_add_absorb (m : Map) (k v : Str) (h : Good m) (hv : Holds m k v) :
    map_add m k v = m := by
  induction m with
  | nil => obtain ⟨s, hs, _⟩ := hv; simp at hs
  | cons p rest ih =>
    obtain ⟨a, s⟩ := p
    rw [map_add_cons]
    obtain ⟨t, ht, hvt⟩ := hv
    by_cases hak : a = k
    · subst hak
      have hst : t = s := good_unique _ h a t s ht (List.mem_cons_self _ _)
      subst hst
      simp [set_insert_of_mem v t (h.asc (a, t) (List.mem_cons_self _ _)) hvt]
    · have hrest : Good rest :=
        ⟨(List.nodup_cons.mp (by simpa using h.keys)).2,
          fun p hp => h.asc p (List.mem_cons_of_mem _ hp),
          fun p hp => h.ne p (List.mem_cons_of_mem _ hp)⟩
      have ht2 : (k, t) ∈ rest := by
        rcases List.mem_cons.mp ht with e | ht
        · exact absurd (Prod.mk.inj e).1.symm hak
        · exact ht
      simp [hak, ih hrest ⟨t, ht2, hvt⟩]

/-! ## Reading a bucket -/

theorem lowercase_no_colon (k : Str) (h : Lowercase k) : ':' ∉ k := by
  intro hc
  exact absurd (h ':' hc).1 (by decide)

theorem find_colon (k rest : Str) (h : ':' ∉ k) :
    find (k ++ ':' :: rest) ':' = some k.length := by
  have hi : List.indexOf ':' (k ++ ':' :: rest) = k.length := by
    rw [List.indexOf_append_of_not_mem h, List.indexOf_cons_self, Nat.add_zero]
  unfold find
  rw [hi]
  simp

theorem parse_record (k t : Str) (h : ':' ∉ k) : parse_line (record k t) = some (k, t) := by
  have hf : find (record k t) ':' = some k.length := by
    unfold record
    rw [List.append_assoc]
    exact find_colon k _ h
  have hlen : (record k t).length = k.length + 2 + t.length := by
    simp only [record, List.length_append, List.length_cons, List.length_nil]
  unfold parse_line find_plus_two substr
  rw [hf]
  have h1 : ¬ (0 > (record k t).length) := by omega
  have h2 : ¬ (k.length + 2 > (record k t).length) := by omega
  simp only [h1, h2, if_false, List.drop_zero]
  have e1 : List.take k.length (record k t) = k := by
    unfold record
    rw [List.append_assoc]
    exact List.take_left k _
  have e2 : List.drop (k.length + 2) (record k t) = t := by
    have : k.length + 2 = (k ++ [':', ' ']).length := by simp
    rw [this]
    exact List.drop_left _ t
  rw [e1, e2]

theorem takeWhile_colon (k rest : Str) (h : ':' ∉ k) :
    (k ++ ':' :: rest).takeWhile (fun c => c != ':') = k := by
  induction k with
  | nil => simp
  | cons c k ih =>
    have hc : c ≠ ':' := fun e => h (e ▸ List.mem_cons_self _ _)
    have hk : ':' ∉ k := fun e => h (List.mem_cons_of_mem _ e)
    simp [List.takeWhile_cons, hc, ih hk]

theorem line_signature_record (k t : Str) (h : ':' ∉ k) : line_signature (record k t) = k := by
  unfold line_signature record
  rw [List.append_assoc]
  exact takeWhile_colon k _ h

theorem line_signature_group_line (k : Str) (toks : List Str) (h : ':' ∉ k) :
    line_signature (group_line k toks) = k := by
  unfold line_signature group_line
  rw [List.append_assoc, List.append_assoc]
  exact takeWhile_colon k _ h

theorem record_inj (s t1 k t : Str) (hk : Lowercase k) (ht : Lowercase t)
    (h : record s t1 = record k t) : s = k ∧ t1 = t := by
  have hkc := lowercase_no_colon k hk
  have htc := lowercase_no_colon t ht
  have hcount : (record s t1).count ':' = (record k t).count ':' := by rw [h]
  have hsc : ':' ∉ s := by
    intro hs
    have h1 : 0 < s.count ':' := List.count_pos_iff.mpr hs
    simp only [record, List.count_append, List.count_cons_self, List.count_nil,
      List.count_eq_zero_of_not_mem hkc, List.count_eq_zero_of_not_mem htc] at hcount
    simp at hcount
    omega
  have hsk : s = k := by
    rw [← line_signature_record s t1 hsc, h, line_signature_record k t hkc]
  subst hsk
  have := congrArg parse_line h
  rw [parse_record s t1 hsc, parse_record s t hkc] at this
  exact ⟨rfl, (Prod.mk.inj (Option.some.inj this)).2⟩

theorem reduce_read_spec (lines : List Str) (ps : List (Str × Str))
    (hp : lines.map parse_line = ps.map some) (m : Map) (hg : Good m) :
    ∃ m1, reduce_read lines m = some m1 ∧ Good m1 ∧
      ∀ k v, Holds m1 k v ↔ Holds m k v ∨ (k, v) ∈ ps := by
  induction lines generalizing ps m with
  | nil =>
    cases ps with
    | nil => exact ⟨m, rfl, hg, by simp⟩
    | cons p ps => simp at hp
  | cons line rest ih =>
    cases ps with
    | nil => simp at hp
    | cons p ps =>
      obtain ⟨k0, v0⟩ := p
      simp only [List.map_cons, List.cons.injEq] at hp
      obtain ⟨m1, h1, h2, h3⟩ := ih ps hp.2 (map_add m k0 v0) (good_map_add m k0 v0 hg)
      refine ⟨m1, ?_, h2, ?_⟩
      · simp only [reduce_read, reduce_step, hp.1]
        exact h1
      · intro k v
        rw [h3, holds_map_add, List.mem_cons, Prod.mk.injEq]
        tauto

theorem well_formed_pairs (lines : List Str) (h : ∀ l ∈ lines, WellFormed l) :
    ∃ ps : List (Str × Str), lines = ps.map (fun p => record p.1 p.2) ∧
      lines.map parse_line = ps.map some ∧
      ∀ p ∈ ps, p.1 ≠ [] ∧ p.2 ≠ [] ∧ Lowercase p.1 ∧ Lowercase p.2 := by
  induction lines with
  | nil => exact ⟨[], rfl, rfl, by simp⟩
  | cons l rest ih =>
    obtain ⟨ps, h1, h2, h3⟩ := ih (fun x hx => h x (List.mem_cons_of_mem _ hx))
    obtain ⟨k, t, hk, ht, hkl, htl, rfl⟩ := h l (List.mem_cons_self _ _)
    refine ⟨(k, t) :: ps, by simp [← h1], ?_, ?_⟩
    · simp [h2, parse_record k t (lowercase_no_colon k hkl)]
    · intro p hp
      rcases List.mem_cons.mp hp with rfl | hp
      · exact ⟨hk, ht, hkl, htl⟩
      · exact h3 p hp

/-! ## Writing the report -/

theorem write_members_eq (set pre vs : List Str) (hset : set = pre ++ vs) (hn : set.Nodup) :
    write_members set vs = List.intercalate [',', ' '] vs := by
  induction vs generalizing pre with
  | nil => simp [write_members, List.intercalate]
  | cons v vs ih =>
    have ih1 := ih (pre ++ [v]) (by simp [hset])
    cases vs with
    | nil =>
      have hl : set.getLast? = some v := by simp [hset]
      simp [write_members, hl, List.intercalate]
    | cons w ws =>
      have hl : set.getLast? = (w :: ws).getLast? := by
        rw [hset, List.getLast?_append]
        have hsome : (v :: w :: ws).getLast? = (w :: ws).getLast? := List.getLast?_cons_cons
        rw [hsome]
        cases hx : (w :: ws).getLast? with
        | none => simp at hx
        | some x => rfl
      have hmem : ∀ x, (w :: ws).getLast? = some x → x ∈ w :: ws :=
        fun x hx => List.mem_of_getLast?_eq_some hx
      have hv : v ∉ w :: ws := by
        rw [hset] at hn
        have := (List.nodup_append.mp hn).2.1
        exact (List.nodup_cons.mp this).1
      have hne : (some v != set.getLast?) = true := by
        rw [hl]
        cases hx : (w :: ws).getLast? with
        | none => simp
        | some x =>
          have hxm := hmem x hx
          have : v ≠ x := fun e => hv (e ▸ hxm)
          simpa using this
      unfold write_members
      rw [hne, ih1]
      simp [List.intercalate, List.intersperse]

theorem write_entry_eq (p : Str × List Str) (h : Ascending p.2) :
    write_entry p = if 1 < p.2.length then [group_line p.1 p.2] else [] := by
  unfold write_entry group_line
  rw [write_members_eq p.2 [] p.2 rfl (ascending_nodup p.2 h)]

theorem reduce_write_eq (it : Iteration) (m : Map) (hg : Good m) :
    reduce_write it m =
      ((it.order m).filter (fun p => 1 < p.2.length)).map (fun p => group_line p.1 p.2) := by
  unfold reduce_write
  rw [← flatten_map_ite (fun p : Str × List Str => 1 < p.2.length)
    (fun p => group_line p.1 p.2) (it.order m)]
  congr 1
  apply List.map_congr_left
  intro p hp
  exact write_entry_eq p (hg.asc p ((it.each_once m).mem_iff.mp hp))

theorem mem_reduce_write (it : Iteration) (m : Map) (hg : Good m) (line : Str) :
    line ∈ reduce_write it m ↔
      ∃ k s, (k, s) ∈ m ∧ 1 < s.length ∧ line = group_line k s := by
  rw [reduce_write_eq it m hg, List.mem_map]
  constructor
  · rintro ⟨⟨k, s⟩, hp, rfl⟩
    rw [List.mem_filter] at hp
    exact ⟨k, s, (it.each_once m).mem_iff.mp hp.1, by simpa using hp.2, rfl⟩
  · rintro ⟨k, s, hks, hlen, rfl⟩
    exact ⟨(k, s), List.mem_filter.mpr ⟨(it.each_once m).mem_iff.mpr hks, by simpa using hlen⟩,
      rfl⟩

theorem reduce_read_well_formed (lines : List Str) (h : ∀ l ∈ lines, WellFormed l) :
    ∃ m, reduce_read lines [] = some m ∧ Good m ∧
      (∀ k v, Holds m k v ↔ record k v ∈ lines) ∧
      (∀ p ∈ m, Lowercase p.1) := by
  obtain ⟨ps, h1, h2, h3⟩ := well_formed_pairs lines h
  obtain ⟨m, hm, hg, hh⟩ := reduce_read_spec lines ps h2 [] good_nil
  have hholds : ∀ k v, Holds m k v ↔ (k, v) ∈ ps := by
    intro k v
    rw [hh]
    simp [Holds]
  refine ⟨m, hm, hg, ?_, ?_⟩
  · intro k v
    rw [hholds, h1, List.mem_map]
    constructor
    · intro hkv
      exact ⟨(k, v), hkv, rfl⟩
    · rintro ⟨⟨k1, v1⟩, hp, he⟩
      obtain ⟨_, _, hk1, hv1⟩ := h3 _ hp
      obtain ⟨rfl, rfl⟩ := record_inj k v k1 v1 hk1 hv1 he.symm
      exact hp
  · rintro ⟨k, s⟩ hp
    obtain ⟨v, hv⟩ := List.exists_mem_of_ne_nil s (hg.ne _ hp)
    have : (k, v) ∈ ps := (hholds k v).mp ⟨s, hp, hv⟩
    exact (h3 _ this).2.2.1

theorem two_distinct_members (s : List Str) (hn : s.Nodup) :
    1 < s.length ↔ ∃ a b, a ≠ b ∧ a ∈ s ∧ b ∈ s := by
  constructor
  · intro h
    match s, hn, h with
    | a :: b :: rest, hn, _ =>
      refine ⟨a, b, ?_, by simp, by simp⟩
      intro e
      rw [List.nodup_cons] at hn
      exact hn.1 (e ▸ List.mem_cons_self _ _)
  · rintro ⟨a, b, hab, ha, hb⟩
    match s, ha, hb with
    | [x], ha, hb =>
      simp only [List.mem_singleton] at ha hb
      exact absurd (ha.trans hb.symm) hab
    | _ :: _ :: _, _, _ => simp

theorem well_formed_record (p : Str × Str)
    (h : p.1 ≠ [] ∧ p.2 ≠ [] ∧ Lowercase p.1 ∧ Lowercase p.2) :
    WellFormed (record p.1 p.2) :=
  ⟨p.1, p.2, h.1, h.2.1, h.2.2.1, h.2.2.2, rfl⟩

theorem well_formed_records (ps : List (Str × Str))
    (h : ∀ p ∈ ps, p.1 ≠ [] ∧ p.2 ≠ [] ∧ Lowercase p.1 ∧ Lowercase p.2) :
    ∀ l ∈ ps.map (fun p => record p.1 p.2), WellFormed l := by
  intro l hl
  rw [List.mem_map] at hl
  obtain ⟨p, hp, rfl⟩ := hl
  exact well_formed_record p (h p hp)

/-! ## Claims on the reducer -/

theorem report_signatures (it : Iteration) (lines : List Str)
    (h : ∀ l ∈ lines, WellFormed l) :
    ∃ report, reduce_lines it lines = some report ∧
      (∀ sig, HasLine report sig ↔
        ∃ t1 t2, t1 ≠ t2 ∧ record sig t1 ∈ lines ∧ record sig t2 ∈ lines) ∧
      (report.map line_signature).Nodup := by
  obtain ⟨m, hm, hg, hh, hlow⟩ := reduce_read_well_formed lines h
  refine ⟨reduce_write it m, by simp [reduce_lines, hm], ?_, ?_⟩
  · intro sig
    constructor
    · rintro ⟨line, hline, hsig⟩
      obtain ⟨k, s, hks, hlen, rfl⟩ := (mem_reduce_write it m hg line).mp hline
      rw [line_signature_group_line k s (lowercase_no_colon k (hlow _ hks))] at hsig
      subst hsig
      obtain ⟨a, b, hab, ha, hb⟩ :=
        (two_distinct_members s (ascending_nodup s (hg.asc _ hks))).mp hlen
      exact ⟨a, b, hab, (hh k a).mp ⟨s, hks, ha⟩, (hh k b).mp ⟨s, hks, hb⟩⟩
    · rintro ⟨t1, t2, hne, h1, h2⟩
      obtain ⟨s1, hs1, ht1⟩ := (hh sig t1).mpr h1
      obtain ⟨s2, hs2, ht2⟩ := (hh sig t2).mpr h2
      have hs : s2 = s1 := good_unique m hg sig s2 s1 hs2 hs1
      subst hs
      have hlen : 1 < s2.length :=
        (two_distinct_members s2 (ascending_nodup s2 (hg.asc _ hs1))).mpr
          ⟨t1, t2, hne, ht1, ht2⟩
      exact ⟨group_line sig s2, (mem_reduce_write it m hg _).mpr ⟨sig, s2, hs1, hlen, rfl⟩,
        line_signature_group_line sig s2 (lowercase_no_colon sig (hlow _ hs1))⟩
  · rw [reduce_write_eq it m hg, List.map_map]
    have hmap : List.map (line_signature ∘ fun p : Str × List Str => group_line p.1 p.2)
        ((it.order m).filter (fun p => 1 < p.2.length)) =
        List.map Prod.fst ((it.order m).filter (fun p => 1 < p.2.length)) := by
      apply List.map_congr_left
      intro p hp
      have hpm : p ∈ m := (it.each_once m).mem_iff.mp (List.mem_filter.mp hp).1
      exact line_signature_group_line p.1 p.2 (lowercase_no_colon p.1 (hlow p hpm))
    rw [hmap]
    have hnd : ((it.order m).map Prod.fst).Nodup :=
      (((it.each_once m).map Prod.fst).nodup_iff).mpr hg.keys
    exact hnd.sublist ((List.filter_sublist _).map Prod.fst)

/-- C2 (grouping correctness): on a bucket of well-formed records `reduce` completes, a
signature has a line in the report exactly when the bucket holds two distinct tokens
recorded under it, and no signature has two lines. -/
theorem grouping_correctness (it : Iteration) (lines : List Str)
    (h : ∀ l ∈ lines, WellFormed l) :
    ∃ report, reduce_lines it lines = some report ∧
      (∀ sig, HasLine report sig ↔
        ∃ t1 t2, t1 ≠ t2 ∧ record sig t1 ∈ lines ∧ record sig t2 ∈ lines) ∧
      (report.map line_signature).Nodup :=
  report_signatures it lines h

/-- The statement of C2 on the bucket `abt: bat`, `dgo: dog`, `abt: tab`. -/
theorem grouping_correctness_witness :
    (∀ l ∈ ["abt: bat".toList, "dgo: dog".toList, "abt: tab".toList], WellFormed l) ∧
    ∃ report,
      reduce_lines oldest_first ["abt: bat".toList, "dgo: dog".toList, "abt: tab".toList] =
        some report ∧
      (∀ sig, HasLine report sig ↔
        ∃ t1 t2, t1 ≠ t2 ∧
          record sig t1 ∈ ["abt: bat".toList, "dgo: dog".toList, "abt: tab".toList] ∧
          record sig t2 ∈ ["abt: bat".toList, "dgo: dog".toList, "abt: tab".toList]) ∧
      (report.map line_signature).Nodup :=
  have hw : ∀ l ∈ ["abt: bat".toList, "dgo: dog".toList, "abt: tab".toList], WellFormed l :=
    well_formed_records
      [("abt".toList, "bat".toList), ("dgo".toList, "dog".toList), ("abt".toList, "tab".toList)]
      (by decide)
  ⟨hw, grouping_correctness oldest_first _ hw⟩

/-- C7 (report line format): on a bucket of well-formed records every line `reduce`
writes is `<signature>: { t1, t2, ..., tk }` with `k ≥ 2`, the members being all the
tokens recorded under the signature, each once, strictly ascending in lexicographic
order, joined by a comma and a space. -/
theorem report_line_format (it : Iteration) (lines : List Str)
    (h : ∀ l ∈ lines, WellFormed l) :
    ∃ report, reduce_lines it lines = some report ∧
      ∀ line ∈ report, ∃ sig toks,
        line = sig ++ ": \x7b ".toList ++ List.intercalate ", ".toList toks ++ " \x7d".toList ∧
        2 ≤ toks.length ∧ toks.Sorted (fun a b => a < b) ∧ toks.Nodup ∧
        ∀ t, t ∈ toks ↔ record sig t ∈ lines := by
  obtain ⟨m, hm, hg, hh, _⟩ := reduce_read_well_formed lines h
  refine ⟨reduce_write it m, by simp [reduce_lines, hm], ?_⟩
  intro line hline
  obtain ⟨k, s, hks, hlen, rfl⟩ := (mem_reduce_write it m hg line).mp hline
  refine ⟨k, s, rfl, hlen, (ascending_iff_sorted s).mp (hg.asc _ hks),
    ascending_nodup s (hg.asc _ hks), ?_⟩
  intro t
  rw [← hh k t]
  constructor
  · intro ht
    exact ⟨s, hks, ht⟩
  · rintro ⟨s1, hs1, ht⟩
    rw [good_unique m hg k s s1 hks hs1]
    exact ht

/-- The statement of C7 on the bucket `opst: stop`, `opst: post`, `opst: stop`,
`opst: pots`, whose report is the one line `opst: { post, pots, stop }`. -/
theorem report_line_format_witness :
    (∀ l ∈ ["opst: stop".toList, "opst: post".toList, "opst: stop".toList,
      "opst: pots".toList], WellFormed l) ∧
    reduce_lines newest_first ["opst: stop".toList, "opst: post".toList, "opst: stop".toList,
      "opst: pots".toList] = some ["opst: \x7b post, pots, stop \x7d".toList] ∧
    ∃ report,
      reduce_lines newest_first ["opst: stop".toList, "opst: post".toList,
        "opst: stop".toList, "opst: pots".toList] = some report ∧
      ∀ line ∈ report, ∃ sig toks,
        line = sig ++ ": \x7b ".toList ++ List.intercalate ", ".toList toks ++ " \x7d".toList ∧
        2 ≤ toks.length ∧ toks.Sorted (fun a b => a < b) ∧ toks.Nodup ∧
        ∀ t, t ∈ toks ↔ record sig t ∈ ["opst: stop".toList, "opst: post".toList,
          "opst: stop".toList, "opst: pots".toList] :=
  have hw : ∀ l ∈ ["opst: stop".toList, "opst: post".toList, "opst: stop".toList,
      "opst: pots".toList], WellFormed l :=
    well_formed_records
      [("opst".toList, "stop".toList), ("opst".toList, "post".toList),
        ("opst".toList, "stop".toList), ("opst".toList, "pots".toList)]
      (by decide)
  ⟨hw, by decide, report_line_format newest_first _ hw⟩

/-! ## Repeated records and arrival order -/

theorem reduce_step_absorb (m : Map) (hg : Good m) (l : Str) (k v : Str)
    (hp : parse_line l = some (k, v)) (hv : Holds m k v) : reduce_step m l = some m := by
  simp only [reduce_step, hp, map_add_absorb m k v hg hv]

theorem reduce_read_filter (ls : List Str) (m : Map) (l k v : Str) (hg : Good m)
    (hp : parse_line l = some (k, v)) (hv : Holds m k v) :
    reduce_read (ls.filter (fun x => x ≠ l)) m = reduce_read ls m := by
  induction ls generalizing m with
  | nil => rfl
  | cons x ls ih =>
    by_cases hx : x = l
    · subst hx
      have hf : List.filter (fun y => decide (y ≠ x)) (x :: ls) =
          List.filter (fun y => decide (y ≠ x)) ls := by simp
      rw [hf, ih m hg hv]
      simp only [reduce_read, reduce_step_absorb m hg x k v hp hv]
    · have hf : List.filter (fun y => decide (y ≠ l)) (x :: ls) =
          x :: List.filter (fun y => decide (y ≠ l)) ls := by simp [hx]
      rw [hf]
      simp only [reduce_read]
      cases hs : reduce_step m x with
      | none => rfl
      | some m1 =>
        simp only
        unfold reduce_step at hs
        cases hpx : parse_line x with
        | none => simp [hpx] at hs
        | some q =>
          obtain ⟨k1, v1⟩ := q
          simp only [hpx, Option.some.injEq] at hs
          subst hs
          exact ih _ (good_map_add m k1 v1 hg)
            ((holds_map_add m k1 v1 k v).mpr (Or.inl hv))

theorem reduce_read_first_occurrences (ls : List Str) (m : Map) (hg : Good m) :
    reduce_read (first_occurrences ls) m = reduce_read ls m := by
  induction ls generalizing m with
  | nil => rfl
  | cons l ls ih =>
    simp only [first_occurrences, reduce_read]
    cases hs : reduce_step m l with
    | none => rfl
    | some m1 =>
      simp only
      unfold reduce_step at hs
      cases hpl : parse_line l with
      | none => simp [hpl] at hs
      | some q =>
        obtain ⟨k, v⟩ := q
        simp only [hpl, Option.some.injEq] at hs
        subst hs
        have hg1 := good_map_add m k v hg
        rw [reduce_read_filter (first_occurrences ls) _ l k v hg1 hpl
          ((holds_map_add m k v k v).mpr (Or.inr ⟨rfl, rfl⟩))]
        exact ih _ hg1

theorem holds_ext (m1 m2 : Map) (h1 : Good m1) (h2 : Good m2)
    (h : ∀ k v, Holds m1 k v → Holds m2 k v) (p : Str × List Str) (hp : p ∈ m1)
    (hrev : ∀ k v, Holds m2 k v → Holds m1 k v) : p ∈ m2 := by
  obtain ⟨k, s⟩ := p
  obtain ⟨v, hv⟩ := List.exists_mem_of_ne_nil s (h1.ne _ hp)
  obtain ⟨s2, hs2, _⟩ := h k v ⟨s, hp, hv⟩
  have hs : s = s2 := by
    apply ascending_ext s s2 (h1.asc _ hp) (h2.asc _ hs2)
    intro x
    constructor
    · intro hx
      obtain ⟨t, ht, hxt⟩ := h k x ⟨s, hp, hx⟩
      rw [good_unique m2 h2 k s2 t hs2 ht]
      exact hxt
    · intro hx
      obtain ⟨t, ht, hxt⟩ := hrev k x ⟨s2, hs2, hx⟩
      rw [good_unique m1 h1 k s t hp ht]
      exact hxt
  rw [hs]
  exact hs2

theorem good_perm (m1 m2 : Map) (h1 : Good m1) (h2 : Good m2)
    (h : ∀ k v, Holds m1 k v ↔ Holds m2 k v) : m1.Perm m2 := by
  rw [List.perm_ext_iff_of_nodup (List.Nodup.of_map _ h1.keys) (List.Nodup.of_map _ h2.keys)]
  intro p
  exact ⟨fun hp => holds_ext m1 m2 h1 h2 (fun k v => (h k v).mp) p hp (fun k v => (h k v).mpr),
    fun hp => holds_ext m2 m1 h2 h1 (fun k v => (h k v).mpr) p hp (fun k v => (h k v).mp)⟩

theorem reduce_lines_perm (it : Iteration) (l1 l2 : List Str) (hp : l1.Perm l2)
    (h : ∀ l ∈ l1, WellFormed l) :
    ∃ r1 r2, reduce_lines it l1 = some r1 ∧ reduce_lines it l2 = some r2 ∧ r1.Perm r2 := by
  have h' : ∀ l ∈ l2, WellFormed l := fun l hl => h l (hp.mem_iff.mpr hl)
  obtain ⟨m1, hm1, hg1, hh1, _⟩ := reduce_read_well_formed l1 h
  obtain ⟨m2, hm2, hg2, hh2, _⟩ := reduce_read_well_formed l2 h'
  refine ⟨reduce_write it m1, reduce_write it m2, by simp [reduce_lines, hm1],
    by simp [reduce_lines, hm2], ?_⟩
  have hm : m1.Perm m2 := good_perm m1 m2 hg1 hg2 (fun k v => by rw [hh1, hh2, hp.mem_iff])
  have ho : (it.order m1).Perm (it.order m2) :=
    ((it.each_once m1).trans hm).trans (it.each_once m2).symm
  rw [reduce_write_eq it m1 hg1, reduce_write_eq it m2 hg2]
  exact (ho.filter _).map _

/-- C8 (dedup): on a bucket of well-formed records `reduce` writes the same report for
the bucket and for the bucket with every repeated occurrence of a line removed, and a
signature whose records all carry the same token has no line in the report. -/
theorem dedup_records (it : Iteration) (lines : List Str) (h : ∀ l ∈ lines, WellFormed l) :
    ∃ report, reduce_lines it lines = some report ∧
      reduce_lines it (first_occurrences lines) = some report ∧
      ∀ sig tok, (∀ t, record sig t ∈ lines → t = tok) → ¬ HasLine report sig := by
  obtain ⟨report, hr, hsig, _⟩ := report_signatures it lines h
  refine ⟨report, hr, ?_, ?_⟩
  · rw [← hr]
    unfold reduce_lines
    rw [reduce_read_first_occurrences lines [] good_nil]
  · intro sig tok hall hline
    obtain ⟨t1, t2, hne, h1, h2⟩ := (hsig sig).mp hline
    exact hne ((hall t1 h1).trans (hall t2 h2).symm)

/-- The statement of C8 on the records of the text `cat cat dog`: the report is empty,
as it is without the repeated record. -/
theorem dedup_records_witness :
    (∀ l ∈ ["act: cat".toList, "act: cat".toList, "dgo: dog".toList], WellFormed l) ∧
    first_occurrences ["act: cat".toList, "act: cat".toList, "dgo: dog".toList] =
      ["act: cat".toList, "dgo: dog".toList] ∧
    reduce_lines newest_first ["act: cat".toList, "act: cat".toList, "dgo: dog".toList] =
      some [] ∧
    ∃ report,
      reduce_lines newest_first ["act: cat".toList, "act: cat".toList, "dgo: dog".toList] =
        some report ∧
      reduce_lines newest_first
        (first_occurrences ["act: cat".toList, "act: cat".toList, "dgo: dog".toList]) =
        some report ∧
      ∀ sig tok,
        (∀ t, record sig t ∈ ["act: cat".toList, "act: cat".toList, "dgo: dog".toList] →
          t = tok) → ¬ HasLine report sig :=
  have hw : ∀ l ∈ ["act: cat".toList, "act: cat".toList, "dgo: dog".toList], WellFormed l :=
    well_formed_records
      [("act".toList, "cat".toList), ("act".toList, "cat".toList), ("dgo".toList, "dog".toList)]
      (by decide)
  ⟨hw, by decide, by decide, dedup_records newest_first _ hw⟩

/-- C9 as stated fails: the buckets `abt: bat`, `abt: tab`, `opst: stop`, `opst: post`
and `opst: stop`, `opst: post`, `abt: bat`, `abt: tab` hold the same records, and under
a walk of the map that visits the newest key first the two reports list their two
lines in opposite orders. -/
theorem arrival_order_changes_report :
    List.Perm
      ["abt: bat".toList, "abt: tab".toList, "opst: stop".toList, "opst: post".toList]
      ["opst: stop".toList, "opst: post".toList, "abt: bat".toList, "abt: tab".toList] ∧
    (∀ l ∈ ["abt: bat".toList, "abt: tab".toList, "opst: stop".toList, "opst: post".toList],
      WellFormed l) ∧
    reduce_lines newest_first
      ["abt: bat".toList, "abt: tab".toList, "opst: stop".toList, "opst: post".toList] =
      some ["opst: \x7b post, stop \x7d".toList, "abt: \x7b bat, tab \x7d".toList] ∧
    reduce_lines newest_first
      ["opst: stop".toList, "opst: post".toList, "abt: bat".toList, "abt: tab".toList] =
      some ["abt: \x7b bat, tab \x7d".toList, "opst: \x7b post, stop \x7d".toList] ∧
    (reduce_lines newest_first
      ["abt: bat".toList, "abt: tab".toList, "opst: stop".toList, "opst: post".toList]).map
        written ≠
    (reduce_lines newest_first
      ["opst: stop".toList, "opst: post".toList, "abt: bat".toList, "abt: tab".toList]).map
        written :=
  ⟨by decide,
    well_formed_records
      [("abt".toList, "bat".toList), ("abt".toList, "tab".toList),
        ("opst".toList, "stop".toList), ("opst".toList, "post".toList)]
      (by decide),
    by decide, by decide, by decide⟩

/-- C9, amended: on two buckets of well-formed records that are rearrangements of each
other `reduce` completes and writes the same lines the same number of times, each line
identical in both reports; the order of the lines may differ. -/
theorem report_lines_up_to_order (it : Iteration) (l1 l2 : List Str) (hp : l1.Perm l2)
    (h : ∀ l ∈ l1, WellFormed l) :
    ∃ r1 r2, reduce_lines it l1 = some r1 ∧ reduce_lines it l2 = some r2 ∧ r1.Perm r2 ∧
      r1.length = r2.length ∧ ∀ line, line ∈ r1 ↔ line ∈ r2 := by
  obtain ⟨r1, r2, h1, h2, hperm⟩ := reduce_lines_perm it l1 l2 hp h
  exact ⟨r1, r2, h1, h2, hperm, hperm.length_eq, fun line => hperm.mem_iff⟩

/-- The amended C9 on the two buckets of the counterexample. -/
theorem report_lines_up_to_order_witness :
    List.Perm
      ["abt: bat".toList, "abt: tab".toList, "opst: stop".toList, "opst: post".toList]
      ["opst: stop".toList, "opst: post".toList, "abt: bat".toList, "abt: tab".toList] ∧
    (∀ l ∈ ["abt: bat".toList, "abt: tab".toList, "opst: stop".toList, "opst: post".toList],
      WellFormed l) ∧
    ∃ r1 r2,
      reduce_lines newest_first
        ["abt: bat".toList, "abt: tab".toList, "opst: stop".toList, "opst: post".toList] =
        some r1 ∧
      reduce_lines newest_first
        ["opst: stop".toList, "opst: post".toList, "abt: bat".toList, "abt: tab".toList] =
        some r2 ∧
      r1.Perm r2 ∧ r1.length = r2.length ∧ ∀ line, line ∈ r1 ↔ line ∈ r2 :=
  have hw : ∀ l ∈ ["abt: bat".toList, "abt: tab".toList, "opst: stop".toList,
      "opst: post".toList], WellFormed l :=
    well_formed_records
      [("abt".toList, "bat".toList), ("abt".toList, "tab".toList),
        ("opst".toList, "stop".toList), ("opst".toList, "post".toList)]
      (by decide)
  ⟨by decide, hw, report_lines_up_to_order newest_first _ _ (by decide) hw⟩

/-! ## Files between the stages -/

theorem takeWhile_delim (d : Char) (k rest : Str) (h : d ∉ k) :
    (k ++ d :: rest).takeWhile (fun c => c != d) = k := by
  induction k with
  | nil => simp
  | cons c k ih =>
    have hc : c ≠ d := fun e => h (e ▸ List.mem_cons_self _ _)
    have hk : d ∉ k := fun e => h (List.mem_cons_of_mem _ e)
    simp [List.takeWhile_cons, hc, ih hk]

theorem dropWhile_delim (d : Char) (k rest : Str) (h : d ∉ k) :
    (k ++ d :: rest).dropWhile (fun c => c != d) = d :: rest := by
  induction k with
  | nil => simp
  | cons c k ih =>
    have hc : c ≠ d := fun e => h (e ▸ List.mem_cons_self _ _)
    have hk : d ∉ k := fun e => h (List.mem_cons_of_mem _ e)
    simp [List.dropWhile_cons, hc, ih hk]

theorem getlines_nil (d : Char) (fuel : Nat) : getlines d fuel [] = [] := by
  cases fuel <;> simp [getlines, getline]

theorem getline_rest_length (d : Char) (s line rest : Str)
    (h : getline d s = some (line, rest)) : rest.length < s.length := by
  unfold getline at h
  split at h
  · exact absurd h (by simp)
  · rename_i hne
    simp only [Option.some.injEq, Prod.mk.injEq] at h
    have hsuf : (s.dropWhile (fun c => c != d)).length ≤ s.length :=
      (List.dropWhile_suffix _).length_le
    have hpos : 0 < s.length := List.length_pos.mpr hne
    rw [← h.2, List.length_drop]
    omega

theorem getlines_fuel (d : Char) (fuel1 fuel2 : Nat) (s : Str) (h1 : s.length ≤ fuel1)
    (h2 : s.length ≤ fuel2) : getlines d fuel1 s = getlines d fuel2 s := by
  induction fuel1 generalizing fuel2 s with
  | zero =>
    have hs : s = [] := List.length_eq_zero.mp (Nat.le_zero.mp h1)
    subst hs
    rw [getlines_nil, getlines_nil]
  | succ fuel1 ih =>
    cases fuel2 with
    | zero =>
      have hs : s = [] := List.length_eq_zero.mp (Nat.le_zero.mp h2)
      subst hs
      rw [getlines_nil, getlines_nil]
    | succ fuel2 =>
      simp only [getlines]
      cases hg : getline d s with
      | none => rfl
      | some p =>
        obtain ⟨line, rest⟩ := p
        have hlt := getline_rest_length d s line rest hg
        simp only
        rw [ih fuel2 rest (by omega) (by omega)]

theorem getlines_written (ls : List Str) (h : ∀ l ∈ ls, '\n' ∉ l) (fuel : Nat)
    (hf : (written ls).length ≤ fuel) : getlines '\n' fuel (written ls) = ls := by
  induction ls generalizing fuel with
  | nil => exact getlines_nil _ _
  | cons l ls ih =>
    have hw : written (l :: ls) = l ++ '\n' :: written ls := by simp [written]
    rw [hw] at hf ⊢
    have hl : '\n' ∉ l := h l (List.mem_cons_self _ _)
    cases fuel with
    | zero => simp at hf
    | succ fuel =>
      have hg : getline '\n' (l ++ '\n' :: written ls) = some (l, written ls) := by
        unfold getline
        rw [takeWhile_delim _ l _ hl, dropWhile_delim _ l _ hl]
        simp
      simp only [getlines, hg]
      rw [ih (fun x hx => h x (List.mem_cons_of_mem _ hx)) fuel (by
        simp only [List.length_append, List.length_cons] at hf
        omega)]

theorem file_lines_written (ls : List Str) (h : ∀ l ∈ ls, '\n' ∉ l) :
    file_lines (some (written ls)) = ls :=
  getlines_written ls h _ (Nat.le_refl _)

theorem splitOnP_append_sep (xs rest : Str) (sep : Char) (h : isspace sep = true) :
    List.splitOnP isspace (xs ++ sep :: rest) =
      List.splitOnP isspace xs ++ List.splitOnP isspace rest := by
  induction xs with
  | nil => simp [List.splitOnP_cons, h, List.splitOnP_nil]
  | cons x xs ih =>
    rw [List.cons_append, List.splitOnP_cons, List.splitOnP_cons, ih]
    by_cases hx : isspace x = true
    · simp [hx]
    · simp only [hx, if_false, Bool.false_eq_true]
      cases hs : List.splitOnP isspace xs with
      | nil => exact absurd hs (List.splitOnP_ne_nil _ _)
      | cons a l => simp

theorem raw_words_append_sep (xs rest : Str) (sep : Char) (h : isspace sep = true) :
    raw_words (xs ++ sep :: rest) = raw_words xs ++ raw_words rest := by
  unfold raw_words
  rw [splitOnP_append_sep xs rest sep h, List.filter_append]

theorem getlines_raw_words (fuel : Nat) (s : Str) (h : s.length ≤ fuel) :
    ((getlines '\n' fuel s).map raw_words).flatten = raw_words s := by
  induction fuel generalizing s with
  | zero =>
    have hs : s = [] := List.length_eq_zero.mp (Nat.le_zero.mp h)
    subst hs
    simp [getlines, raw_words_nil]
  | succ fuel ih =>
    cases s with
    | nil => simp [getlines, getline, raw_words_nil]
    | cons c s =>
      have hsplit := List.takeWhile_append_dropWhile (fun x => x != '\n') (c :: s)
      have hg : getline '\n' (c :: s) =
          some ((c :: s).takeWhile (fun x => x != '\n'),
            ((c :: s).dropWhile (fun x => x != '\n')).drop 1) := by
        simp [getline]
      simp only [getlines, hg, List.map_cons, List.flatten_cons]
      rcases dropWhile_head (fun x => x != '\n') (c :: s) with h0 | ⟨d, r, hd, hnl⟩
      · rw [h0] at hsplit ⊢
        rw [List.append_nil] at hsplit
        rw [hsplit]
        simp [getlines_nil, raw_words_nil]
      · have hdn : d = '\n' := by simpa using hnl
        subst hdn
        rw [hd] at hsplit ⊢
        have hlen : r.length ≤ fuel := by
          have := congrArg List.length hsplit
          simp only [List.length_append, List.length_cons] at this h
          omega
        simp only [List.drop_succ_cons, List.drop_zero]
        rw [ih r hlen]
        conv_rhs => rw [← hsplit]
        exact (raw_words_append_sep _ r '\n' (by decide)).symm

theorem tokens_flatten (stop_words : List Str) (L : List Str) :
    ((L.map (tokens stop_words)).flatten) =
      ((((L.map raw_words).flatten).map normal_form).filter
        (fun t => t ≠ [] ∧ t ∉ stop_words)) := by
  induction L with
  | nil => rfl
  | cons l L ih =>
    simp only [List.map_cons, List.flatten_cons, List.map_append, List.filter_append, ih]
    rfl

theorem mapper_eq (text : Str) (stop_words : List Str) :
    mapper_read_from_file (some text) stop_words =
      (tokens stop_words text).map (fun t => record (sort t) t) := by
  unfold mapper_read_from_file
  have h1 : (file_lines (some text)).map (map_line stop_words) =
      (file_lines (some text)).map
        (fun l => (tokens stop_words l).map (fun t => record (sort t) t)) :=
    List.map_congr_left (fun l _ => map_line_eq stop_words l)
  have h2 : ((file_lines (some text)).map raw_words).flatten = raw_words text :=
    getlines_raw_words text.length text (Nat.le_refl _)
  have h3 : (file_lines (some text)).map
      (fun l => (tokens stop_words l).map (fun t => record (sort t) t)) =
      ((file_lines (some text)).map (tokens stop_words)).map
        (List.map (fun t => record (sort t) t)) := by
    rw [List.map_map]
    rfl
  rw [h1, h3, ← List.map_flatten, tokens_flatten, h2]
  rfl

/-! ## The directory-layout pipeline -/

theorem mapper_no_newline (src : File) (stop_words : List Str) :
    ∀ l ∈ mapper_read_from_file src stop_words, '\n' ∉ l := by
  intro l hl hn
  obtain ⟨w, rfl, _, _⟩ := mem_mapper src stop_words l hl
  have hlow : Lowercase (normal_form w) := normal_form_eq w ▸ lowercase_filtered w
  simp only [record, List.mem_append, List.mem_cons, List.mem_singleton, List.not_mem_nil,
    or_false] at hn
  rcases hn with (hn | hn | hn) | hn
  · exact absurd (lowercase_sort _ hlow _ hn).1 (by decide)
  · exact absurd hn (by decide)
  · exact absurd hn (by decide)
  · exact absurd (hlow _ hn).1 (by decide)

theorem mapper_well_formed (src : File) (stop_words : List Str) :
    ∀ l ∈ mapper_read_from_file src stop_words, WellFormed l := by
  intro l hl
  obtain ⟨w, rfl, hne, _⟩ := mem_mapper src stop_words l hl
  have hlow : Lowercase (normal_form w) := normal_form_eq w ▸ lowercase_filtered w
  refine ⟨sort (normal_form w), normal_form w, ?_, hne, lowercase_sort _ hlow, hlow, rfl⟩
  intro he
  have := (sort_perm (normal_form w)).length_eq
  rw [he] at this
  exact hne (List.length_eq_zero.mp this.symm)

theorem shuffler0_eq (lines : List Str) (h : ∀ l ∈ lines, '\n' ∉ l) :
    shuffler0 (some (written lines)) = some [lines, [], [], [], []] := by
  unfold shuffler0 shuffler0_read_from_file
  rw [file_lines_written lines h,
    shuffle_loop_eq (fun _ => 0) lines fresh_outputs (fun _ _ => by simp [fresh_outputs])]
  simp [fresh_outputs, List.range_succ]

theorem pipeline_fixed_eq (it : Iteration) (src : File) (stop_words : List Str) :
    pipeline_fixed it src stop_words = reduce_lines it (mapper_read_from_file src stop_words) := by
  unfold pipeline_fixed
  rw [shuffler0_eq _ (mapper_no_newline src stop_words)]
  simp only [List.getD_cons_zero, reduce]
  rw [file_lines_written _ (mapper_no_newline src stop_words)]

theorem reduce_write_perm (it : Iteration) (m : Map) :
    (reduce_write it m).Perm (reduce_write oldest_first m) := by
  unfold reduce_write
  exact (((it.each_once m).trans (oldest_first.each_once m).symm).map write_entry).flatten

theorem reduce_lines_any (it : Iteration) (lines : List Str) (r0 : List Str)
    (h0 : reduce_lines oldest_first lines = some r0) :
    ∃ r, reduce_lines it lines = some r ∧ r.Perm r0 := by
  unfold reduce_lines at h0 ⊢
  cases hm : reduce_read lines [] with
  | none => simp [hm] at h0
  | some m =>
    simp only [hm, Option.map_some', Option.some.injEq] at h0 ⊢
    exact ⟨_, rfl, h0 ▸ reduce_write_perm it m⟩

theorem pipeline_fixed_single (it : Iteration) (src : File) (stop_words : List Str)
    (line : Str) (h0 : pipeline_fixed oldest_first src stop_words = some [line]) :
    pipeline_fixed it src stop_words = some [line] := by
  rw [pipeline_fixed_eq] at h0 ⊢
  obtain ⟨r, hr, hperm⟩ := reduce_lines_any it _ _ h0
  rw [hr, List.perm_singleton.mp hperm]

theorem pipeline_fixed_empty (it : Iteration) (src : File) (stop_words : List Str)
    (h0 : pipeline_fixed oldest_first src stop_words = some []) :
    pipeline_fixed it src stop_words = some [] := by
  rw [pipeline_fixed_eq] at h0 ⊢
  obtain ⟨r, hr, hperm⟩ := reduce_lines_any it _ _ h0
  rw [hr, hperm.eq_nil]

theorem record_mem_mapper (text : Str) (stop_words : List Str) (sig t : Str) :
    record sig t ∈ mapper_read_from_file (some text) stop_words ↔
      t ∈ tokens stop_words text ∧ sort t = sig := by
  rw [mapper_eq, List.mem_map]
  constructor
  · rintro ⟨t1, ht1, he⟩
    have hm : record (sort t1) t1 ∈ mapper_read_from_file (some text) stop_words := by
      rw [mapper_eq]
      exact List.mem_map_of_mem _ ht1
    obtain ⟨w, hw, _, _⟩ := mem_mapper _ _ _ hm
    have hlow : Lowercase (normal_form w) := normal_form_eq w ▸ lowercase_filtered w
    obtain ⟨h1, h2⟩ := record_inj _ _ _ _ (lowercase_sort _ hlow) hlow hw
    have hl1 : Lowercase t1 := h2 ▸ hlow
    obtain ⟨h3, h4⟩ := record_inj sig t (sort t1) t1 (lowercase_sort _ hl1) hl1 he.symm
    subst h4
    exact ⟨ht1, h3.symm⟩
  · rintro ⟨ht, rfl⟩
    exact ⟨t, ht, rfl⟩

/-- C3 (end-to-end correctness of the directory-layout pipeline): for every text and
stop-word list the pipeline completes, its report has a line for a signature exactly
when the text has two distinct tokens with that signature, every line lists exactly
the tokens of its signature, and no signature has two lines; the three example texts of
the specification give the stated reports. -/
theorem end_to_end_fixed :
    (∀ (it : Iteration) (text : Str) (stop_words : List Str),
      ∃ report, pipeline_fixed it (some text) stop_words = some report ∧
        (∀ sig, HasLine report sig ↔
          ∃ t1 t2, t1 ≠ t2 ∧ t1 ∈ tokens stop_words text ∧ t2 ∈ tokens stop_words text ∧
            sort t1 = sig ∧ sort t2 = sig) ∧
        (∀ line ∈ report, ∃ sig toks,
          line = sig ++ ": \x7b ".toList ++ List.intercalate ", ".toList toks ++
            " \x7d".toList ∧
          toks.Sorted (fun a b => a < b) ∧
          ∀ t, t ∈ toks ↔ (t ∈ tokens stop_words text ∧ sort t = sig)) ∧
        (report.map line_signature).Nodup) ∧
    (∀ it : Iteration,
      pipeline_fixed it (some "Listen! Silent nights, tins.".toList) [] =
        some ["eilnst: \x7b listen, silent \x7d".toList]) ∧
    (∀ it : Iteration, pipeline_fixed it (some "cat cat dog".toList) [] = some []) ∧
    (∀ it : Iteration,
      pipeline_fixed it (some "The bat tab".toList) ["the".toList] =
        some ["abt: \x7b bat, tab \x7d".toList]) := by
  refine ⟨?_, fun it => pipeline_fixed_single it _ _ _ (by decide),
    fun it => pipeline_fixed_empty it _ _ (by decide),
    fun it => pipeline_fixed_single it _ _ _ (by decide)⟩
  intro it text stop_words
  have hwf := mapper_well_formed (some text) stop_words
  obtain ⟨m, hm, hg, hh, _⟩ := reduce_read_well_formed _ hwf
  obtain ⟨report, hr, hsig, hnd⟩ := report_signatures it _ hwf
  have hrw : report = reduce_write it m := by
    simp only [reduce_lines, hm, Option.map_some', Option.some.injEq] at hr
    exact hr.symm
  refine ⟨report, by rw [pipeline_fixed_eq, hr], ?_, ?_, hnd⟩
  · intro sig
    rw [hsig sig]
    constructor
    · rintro ⟨t1, t2, hne, h1, h2⟩
      obtain ⟨a1, a2⟩ := (record_mem_mapper text stop_words sig t1).mp h1
      obtain ⟨b1, b2⟩ := (record_mem_mapper text stop_words sig t2).mp h2
      exact ⟨t1, t2, hne, a1, b1, a2, b2⟩
    · rintro ⟨t1, t2, hne, a1, b1, a2, b2⟩
      exact ⟨t1, t2, hne, (record_mem_mapper text stop_words sig t1).mpr ⟨a1, a2⟩,
        (record_mem_mapper text stop_words sig t2).mpr ⟨b1, b2⟩⟩
  · intro line hline
    rw [hrw] at hline
    obtain ⟨k, s, hks, _, rfl⟩ := (mem_reduce_write it m hg line).mp hline
    refine ⟨k, s, rfl, (ascending_iff_sorted s).mp (hg.asc _ hks), ?_⟩
    intro t
    rw [← record_mem_mapper text stop_words k t, ← hh k t]
    constructor
    · intro ht
      exact ⟨s, hks, ht⟩
    · rintro ⟨s1, hs1, ht⟩
      rw [good_unique m hg k s s1 hks hs1]
      exact ht

/-! ## Normalization -/

theorem tolower_of_lower (c : Char) (h : 'a' ≤ c ∧ c ≤ 'z') : tolower c = c := by
  unfold tolower
  split
  · rename_i hu
    rw [char_le_iff, char_le_iff] at hu
    rw [char_le_iff, char_le_iff] at h
    have h1 : ('a').toNat = 97 := rfl
    have h2 : ('Z').toNat = 90 := rfl
    omega
  · rfl

theorem normalize_lowercase (t : Str) (h : Lowercase t) : normalize t = t := by
  unfold normalize
  have hf : t.filter is_letter = t := by
    rw [List.filter_eq_self]
    intro c hc
    have := h c hc
    simp [is_letter, this.1, this.2]
  rw [hf]
  conv_rhs => rw [← List.map_id t]
  apply List.map_congr_left
  intro c hc
  exact tolower_of_lower c (h c hc)

theorem lowercase_normalize (w : Str) : Lowercase (normalize w) := lowercase_filtered w

theorem normalize_eq_normal_form (w : Str) : normalize w = normal_form w := normal_form_eq w

theorem lowercase_no_space (t : Str) (h : Lowercase t) : ∀ c ∈ t, isspace c = false := by
  intro c hc
  have hl := h c hc
  cases hs : isspace c with
  | false => rfl
  | true =>
    simp only [isspace, Bool.or_eq_true, decide_eq_true_eq] at hs
    rcases hs with ((((rfl | rfl) | rfl) | rfl) | rfl) | rfl <;>
      exact absurd hl.1 (by decide)

theorem tokens_of_token (stop_words : List Str) (t : Str) (hne : t ≠ []) (hl : Lowercase t)
    (hs : t ∉ stop_words) : tokens stop_words t = [t] := by
  have hr : raw_words t = [t] := by
    have := raw_words_word_append t [] (lowercase_no_space t hl) hne (Or.inl rfl)
    rw [List.append_nil, raw_words_nil] at this
    exact this
  have hn : normal_form t = t := by
    rw [← normalize_eq_normal_form]
    exact normalize_lowercase t hl
  simp [tokens, hr, hn, hne, hs]

/-- C12 (idempotence of normalization): the normalization of the mapper applied to a
normalized word returns it unchanged, and a string that is already a token (non-empty,
lowercase letters only, not a stop word) is its own normal form and is written by the
mapper as the one record that carries it as token. -/
theorem normalization_idempotent (w : Str) (stop_words : List Str) (t : Str) (hne : t ≠ [])
    (hl : Lowercase t) (hs : t ∉ stop_words) :
    normalize (normalize w) = normalize w ∧ normalize t = t ∧
      map_word stop_words t = [sort t ++ ": ".toList ++ t] ∧
      map_line stop_words t = [sort t ++ ": ".toList ++ t] ∧
      mapper_read_from_file (some t) stop_words = [sort t ++ ": ".toList ++ t] := by
  refine ⟨normalize_lowercase _ (lowercase_normalize w), normalize_lowercase t hl, ?_, ?_, ?_⟩
  · have hn : normal_form t = t := by
      rw [← normalize_eq_normal_form]
      exact normalize_lowercase t hl
    rw [map_word_eq, hn]
    simp [hne, hs, record]
  · rw [map_line_eq, tokens_of_token stop_words t hne hl hs]
    rfl
  · rw [mapper_eq, tokens_of_token stop_words t hne hl hs]
    rfl

/-- The statement of C12 at the raw word `Don't!`, the stop word `the` and the token
`dont`. -/
theorem normalization_idempotent_witness :
    normalize "Don't!".toList = "dont".toList ∧
    "dont".toList ≠ [] ∧ Lowercase "dont".toList ∧ "dont".toList ∉ ["the".toList] ∧
    normalize (normalize "Don't!".toList) = normalize "Don't!".toList ∧
    normalize "dont".toList = "dont".toList ∧
    map_word ["the".toList] "dont".toList =
      [sort "dont".toList ++ ": ".toList ++ "dont".toList] ∧
    map_line ["the".toList] "dont".toList =
      [sort "dont".toList ++ ": ".toList ++ "dont".toList] ∧
    mapper_read_from_file (some "dont".toList) ["the".toList] =
      [sort "dont".toList ++ ": ".toList ++ "dont".toList] :=
  ⟨by decide, by decide, by decide, by decide,
    normalization_idempotent "Don't!".toList ["the".toList] "dont".toList (by decide)
      (by decide) (by decide)⟩

/-! ## Files that cannot be opened -/

theorem reduce_none (it : Iteration) : reduce it none = some [] := by
  have h : reduce it none = some (reduce_write it []) := rfl
  have hw : reduce_write it [] = [] := by
    unfold reduce_write
    rw [(it.each_once []).eq_nil]
    rfl
  rw [h, hw]

theorem reduce_empty (it : Iteration) : reduce it (some []) = some [] := by
  have h : reduce it (some []) = some (reduce_write it []) := rfl
  have hw : reduce_write it [] = [] := by
    unfold reduce_write
    rw [(it.each_once []).eq_nil]
    rfl
  rw [h, hw]

/-- C13 as stated fails: on a bucket file that cannot be opened `reduce` completes and
writes the empty report, the report of an empty bucket. -/
theorem missing_bucket_completes :
    reduce oldest_first none = some [] ∧
    reduce oldest_first none = reduce oldest_first (some []) ∧
    reduce newest_first none = some [] := by
  decide

/-- C13, amended: whatever the iteration order, on a bucket file that cannot be opened
`reduce` completes normally and writes the empty report, exactly as it does on an empty
bucket file; no failure is raised. -/
theorem missing_bucket_report (it : Iteration) :
    reduce it none = some [] ∧ reduce it none = reduce it (some []) ∧
      (reduce it none).map written = some [] :=
  ⟨reduce_none it, by rw [reduce_none, reduce_empty], by rw [reduce_none]; rfl⟩

/-- C14 as stated fails: on a source that cannot be opened the mapper completes with an
empty `.map` output, the output of an empty source, and the later stages of both
pipelines run on it to an empty report. -/
theorem missing_source_completes :
    mapper_read_from_file none ["the".toList] = [] ∧
    mapper_read_from_file none ["the".toList] =
      mapper_read_from_file (some []) ["the".toList] ∧
    written (mapper_read_from_file none ["the".toList]) = [] ∧
    pipeline_fixed oldest_first none ["the".toList] = some [] ∧
    pipeline_hash oldest_first djb2 none ["the".toList] = some [] := by
  decide

/-- C14, amended: for every stop-word list, on a source that cannot be opened the
mapper completes normally and creates an empty `.map` output, the same as for an empty
source, and the directory-layout pipeline run on it completes with an empty report; no
failure is raised. -/
theorem missing_source_output (it : Iteration) (stop_words : List Str) :
    mapper_read_from_file none stop_words = [] ∧
      mapper_read_from_file none stop_words = mapper_read_from_file (some []) stop_words ∧
      written (mapper_read_from_file none stop_words) = [] ∧
      pipeline_fixed it none stop_words = some [] := by
  have h1 : mapper_read_from_file none stop_words = [] := rfl
  have h2 : mapper_read_from_file (some []) stop_words = [] := rfl
  refine ⟨h1, by rw [h1, h2], by rw [h1]; rfl, ?_⟩
  rw [pipeline_fixed_eq, h1]
  have h : reduce_lines it [] = reduce it none := rfl
  rw [h, reduce_none]

/-! ## The fixed-bucket shuffler -/

theorem shuffler0_lines (input : File) :
    shuffler0 input = some [file_lines input, [], [], [], []] := by
  unfold shuffler0 shuffler0_read_from_file
  rw [shuffle_loop_eq (fun _ => 0) (file_lines input) fresh_outputs
    (fun _ _ => by simp [fresh_outputs])]
  simp [fresh_outputs, List.range_succ]

/-- C15 (fixed-bucket variant): the shuffler of the directory layout writes every line
of its input to bucket 0, in input order, and nothing to buckets 1 to 4; bucket 0 is
the bucket on which the reducer of the directory layout runs in the pipeline. -/
theorem fixed_bucket_routing (input : File) (it : Iteration) (source : File)
    (stop_words : List Str) :
    shuffler0 input = some [file_lines input, [], [], [], []] ∧
    (∃ outputs, shuffler0 input = some outputs ∧ outputs.length = 5 ∧
      outputs.getD 0 [] = file_lines input ∧ ∀ i, 1 ≤ i → outputs.getD i [] = []) ∧
    ∃ outputs,
      shuffler0 (some (written (mapper_read_from_file source stop_words))) = some outputs ∧
      outputs.getD 0 [] = mapper_read_from_file source stop_words ∧
      pipeline_fixed it source stop_words = reduce it (some (written (outputs.getD 0 []))) := by
  refine ⟨shuffler0_lines input, ⟨_, shuffler0_lines input, rfl, rfl, ?_⟩, ?_⟩
  · intro i hi
    match i, hi with
    | 1, _ => rfl
    | 2, _ => rfl
    | 3, _ => rfl
    | 4, _ => rfl
    | n + 5, _ => simp [List.getD_eq_getElem?_getD]
  · refine ⟨_, shuffler0_eq _ (mapper_no_newline source stop_words), rfl, ?_⟩
    unfold pipeline_fixed
    rw [shuffler0_eq _ (mapper_no_newline source stop_words)]

/-! ## Lines without the separator -/

theorem find_none (l : Str) (h : ':' ∉ l) : find l ':' = none := by
  unfold find
  rw [List.indexOf_eq_length.mpr h]
  simp

theorem parse_line_no_colon (l : Str) (h : ':' ∉ l) (hne : l ≠ []) :
    parse_line l = some (l, l.drop 1) := by
  have hpos : 0 < l.length := List.length_pos.mpr hne
  have h2 : find_plus_two l = 1 := by
    unfold find_plus_two
    rw [find_none l h]
    decide
  have h1 : ¬ (1 > l.length) := by omega
  unfold parse_line substr
  rw [h2, find_none l h]
  simp [h1]

theorem parse_line_readable (l : Str) (h : Readable l) : ∃ kv, parse_line l = some kv := by
  unfold Readable at h
  cases hf : find l ':' with
  | none =>
    rw [hf] at h
    have hc : ':' ∉ l := by
      intro hc
      unfold find at hf
      rw [if_pos (List.indexOf_lt_length.mpr hc)] at hf
      exact absurd hf (by simp)
    exact ⟨_, parse_line_no_colon l hc h⟩
  | some i =>
    rw [hf] at h
    simp only at h
    have h1 : ¬ (i + 2 > l.length) := by omega
    unfold parse_line find_plus_two substr
    rw [hf]
    simp [h1]

theorem readable_pairs (lines : List Str) (h : ∀ l ∈ lines, Readable l) :
    lines.map parse_line = (lines.filterMap parse_line).map some := by
  induction lines with
  | nil => rfl
  | cons l ls ih =>
    obtain ⟨kv, hkv⟩ := parse_line_readable l (h l (List.mem_cons_self _ _))
    rw [List.map_cons, List.filterMap_cons, hkv, List.map_cons,
      ih (fun x hx => h x (List.mem_cons_of_mem _ hx))]

theorem reduce_read_readable (lines : List Str) (h : ∀ l ∈ lines, Readable l) :
    ∃ m, reduce_read lines [] = some m ∧ Good m ∧
      ∀ k v, Holds m k v ↔ ∃ l ∈ lines, parse_line l = some (k, v) := by
  obtain ⟨m, hm, hg, hh⟩ :=
    reduce_read_spec lines (lines.filterMap parse_line) (readable_pairs lines h) [] good_nil
  refine ⟨m, hm, hg, ?_⟩
  intro k v
  rw [hh, List.mem_filterMap]
  simp [Holds]

/-- C11 as stated fails: in the bucket `act: cat`, `act` the second line has no colon,
yet it is not skipped: it is read as the key `act` with the value `ct`, and the report
has the line `act: { cat, ct }` where the bucket without that line has an empty report;
and the empty line, like a line that ends at its first colon, ends `reduce` with an
uncaught exception. -/
theorem malformed_line_not_skipped :
    lacks_separator "act".toList = true ∧ lacks_separator "act: cat".toList = false ∧
    ["act: cat".toList, "act".toList].filter (fun l => !lacks_separator l) =
      ["act: cat".toList] ∧
    reduce_lines oldest_first ["act: cat".toList, "act".toList] =
      some ["act: \x7b cat, ct \x7d".toList] ∧
    reduce_lines oldest_first ["act: cat".toList] = some [] ∧
    lacks_separator [] = true ∧ reduce_lines oldest_first ["act: cat".toList, []] = none ∧
    lacks_separator "act:".toList = true ∧
    reduce_lines oldest_first ["act: cat".toList, "act:".toList] = none := by
  decide

theorem not_mem_take_indexOf (l : Str) : ':' ∉ l.take (l.indexOf ':') := by
  induction l with
  | nil => simp
  | cons c l ih =>
    by_cases hc : c = ':'
    · subst hc
      simp
    · have hne : ¬ (':' = c) := fun e => hc e.symm
      rw [List.indexOf_cons_ne _ hc, List.take_succ_cons]
      intro hm
      rcases List.mem_cons.mp hm with e | hm
      · exact hne e
      · exact ih hm

theorem parse_line_colon (l : Str) (i : Nat) (hf : find l ':' = some i)
    (h : i + 2 ≤ l.length) : parse_line l = some (l.take i, l.drop (i + 2)) := by
  have h1 : ¬ (i + 2 > l.length) := by omega
  unfold parse_line find_plus_two substr
  rw [hf]
  simp [h1]

theorem parse_line_key_no_colon (l k v : Str) (h : parse_line l = some (k, v)) : ':' ∉ k := by
  cases hf : find l ':' with
  | none =>
    have hc : ':' ∉ l := by
      intro hc
      unfold find at hf
      rw [if_pos (List.indexOf_lt_length.mpr hc)] at hf
      exact absurd hf (by simp)
    by_cases hne : l = []
    · subst hne
      have hnil : parse_line [] = none := by decide
      rw [hnil] at h
      exact absurd h (by simp)
    · rw [parse_line_no_colon l hc hne] at h
      rw [← (Prod.mk.inj (Option.some.inj h)).1]
      exact hc
  | some i =>
    have hi : i = l.indexOf ':' := by
      unfold find at hf
      split at hf
      · exact (Option.some.inj hf).symm
      · exact absurd hf (by simp)
    by_cases hlen : i + 2 ≤ l.length
    · rw [parse_line_colon l i hf hlen] at h
      rw [← (Prod.mk.inj (Option.some.inj h)).1, hi]
      exact not_mem_take_indexOf l
    · exfalso
      have h1 : i + 2 > l.length := by omega
      unfold parse_line find_plus_two substr at h
      rw [hf] at h
      simp [h1] at h

/-- C11, amended: `reduce` skips no line.  On a bucket of ASCII lines that are all
non-empty and have a character after their first colon when they have a colon, `reduce`
completes; a line without colon is read as the record whose key is the whole line and
whose value is the line without its first character, a line with a colon as the record
whose key is the text before the first colon and whose value is the text from two
characters after it; and the report is a list of groups with pairwise distinct keys,
one line for each, the groups being exactly the keys under which at least two distinct
values were read together with all those values in ascending order. -/
theorem every_line_is_read (it : Iteration) (lines : List Str)
    (_ascii : ∀ l ∈ lines, Ascii l) (h : ∀ l ∈ lines, Readable l) :
    ∃ report, reduce_lines it lines = some report ∧
      (∀ l ∈ lines, ':' ∉ l → parse_line l = some (l, l.drop 1)) ∧
      (∀ l ∈ lines, ∀ i, find l ':' = some i →
        parse_line l = some (l.take i, l.drop (i + 2))) ∧
      ∃ groups : List (Str × List Str),
        (groups.map Prod.fst).Nodup ∧
        report = groups.map (fun p =>
          p.1 ++ ": \x7b ".toList ++ List.intercalate ", ".toList p.2 ++ " \x7d".toList) ∧
        (report.map line_signature) = groups.map Prod.fst ∧
        report.length = groups.length ∧
        ∀ key toks, (key, toks) ∈ groups ↔
          (2 ≤ toks.length ∧ toks.Sorted (fun a b => a < b) ∧
            ∀ t, t ∈ toks ↔ ∃ l ∈ lines, parse_line l = some (key, t)) := by
  obtain ⟨m, hm, hg, hh⟩ := reduce_read_readable lines h
  have hkeys : ∀ p ∈ m, ':' ∉ p.1 := by
    rintro ⟨k, s⟩ hp
    obtain ⟨v, hv⟩ := List.exists_mem_of_ne_nil s (hg.ne _ hp)
    obtain ⟨l, _, hl⟩ := (hh k v).mp ⟨s, hp, hv⟩
    exact parse_line_key_no_colon l k v hl
  have hrep : reduce_write it m =
      ((it.order m).filter (fun p => 1 < p.2.length)).map (fun p => group_line p.1 p.2) :=
    reduce_write_eq it m hg
  refine ⟨reduce_write it m, by simp [reduce_lines, hm], ?_, ?_,
    (it.order m).filter (fun p => 1 < p.2.length), ?_, hrep, ?_, ?_, ?_⟩
  · intro l hl hc
    have hr := h l hl
    unfold Readable at hr
    rw [find_none l hc] at hr
    exact parse_line_no_colon l hc hr
  · intro l hl i hf
    have hr := h l hl
    unfold Readable at hr
    rw [hf] at hr
    exact parse_line_colon l i hf hr
  · have hnd : ((it.order m).map Prod.fst).Nodup :=
      (((it.each_once m).map Prod.fst).nodup_iff).mpr hg.keys
    exact hnd.sublist ((List.filter_sublist _).map Prod.fst)
  · rw [hrep, List.map_map]
    apply List.map_congr_left
    intro p hp
    have hpm : p ∈ m := (it.each_once m).mem_iff.mp (List.mem_filter.mp hp).1
    exact line_signature_group_line p.1 p.2 (hkeys p hpm)
  · rw [hrep, List.length_map]
  · intro k toks
    rw [List.mem_filter, (it.each_once m).mem_iff]
    constructor
    · rintro ⟨hks, hlen⟩
      refine ⟨by simpa using hlen, (ascending_iff_sorted toks).mp (hg.asc _ hks), ?_⟩
      intro t
      rw [← hh k t]
      constructor
      · intro ht
        exact ⟨toks, hks, ht⟩
      · rintro ⟨s1, hs1, ht⟩
        rw [good_unique m hg k toks s1 hks hs1]
        exact ht
    · rintro ⟨hlen, hsorted, hmem⟩
      obtain ⟨t0, ht0⟩ := List.exists_mem_of_length_pos (by omega : 0 < toks.length)
      obtain ⟨s, hks, _⟩ := (hh k t0).mpr ((hmem t0).mp ht0)
      have hs : s = toks := by
        apply ascending_ext s toks (hg.asc _ hks) ((ascending_iff_sorted toks).mpr hsorted)
        intro x
        rw [hmem x, ← hh k x]
        constructor
        · intro hx
          exact ⟨s, hks, hx⟩
        · rintro ⟨s1, hs1, hx⟩
          rw [good_unique m hg k s s1 hks hs1]
          exact hx
      subst hs
      exact ⟨hks, by simpa using hlen⟩

/-- The amended C11 on the bucket `act: cat`, `act`, `dgo:dog`, whose report is the one
line `act: { cat, ct }`. -/
theorem every_line_is_read_witness :
    (∀ l ∈ ["act: cat".toList, "act".toList, "dgo:dog".toList], Ascii l) ∧
    (∀ l ∈ ["act: cat".toList, "act".toList, "dgo:dog".toList], Readable l) ∧
    reduce_lines newest_first ["act: cat".toList, "act".toList, "dgo:dog".toList] =
      some ["act: \x7b cat, ct \x7d".toList] ∧
    ∃ report,
      reduce_lines newest_first ["act: cat".toList, "act".toList, "dgo:dog".toList] =
        some report ∧
      (∀ l ∈ ["act: cat".toList, "act".toList, "dgo:dog".toList], ':' ∉ l →
        parse_line l = some (l, l.drop 1)) ∧
      (∀ l ∈ ["act: cat".toList, "act".toList, "dgo:dog".toList], ∀ i,
        find l ':' = some i → parse_line l = some (l.take i, l.drop (i + 2))) ∧
      ∃ groups : List (Str × List Str),
        (groups.map Prod.fst).Nodup ∧
        report = groups.map (fun p =>
          p.1 ++ ": \x7b ".toList ++ List.intercalate ", ".toList p.2 ++ " \x7d".toList) ∧
        (report.map line_signature) = groups.map Prod.fst ∧
        report.length = groups.length ∧
        ∀ key toks, (key, toks) ∈ groups ↔
          (2 ≤ toks.length ∧ toks.Sorted (fun a b => a < b) ∧
            ∀ t, t ∈ toks ↔
              ∃ l ∈ ["act: cat".toList, "act".toList, "dgo:dog".toList],
                parse_line l = some (key, t)) :=
  ⟨by decide, by decide, by decide,
    every_line_is_read newest_first _ (by decide) (by decide)⟩

/-! ## Reports up to the order of their lines -/

theorem str_lt_false_trans (a b c : Str) (h1 : str_lt b a = false) (h2 : str_lt c b = false) :
    str_lt c a = false := by
  cases hca : str_lt c a with
  | false => rfl
  | true =>
    cases hbc : str_lt b c with
    | true =>
      have := str_lt_trans b c a hbc hca
      rw [h1] at this
      exact absurd this (by simp)
    | false =>
      have hcb : c = b := str_lt_connected c b h2 hbc
      rw [hcb, h1] at hca
      exact absurd hca (by simp)

theorem sort_by_signature_perm (r : List Str) : (sort_by_signature r).Perm r :=
  List.perm_insertionSort _ r

theorem sort_by_signature_sorted (r : List Str) :
    (sort_by_signature r).Pairwise
      (fun a b => str_lt (line_signature b) (line_signature a) = false) := by
  haveI : IsTotal Str (fun a b => str_lt (line_signature b) (line_signature a) = false) :=
    ⟨fun a b => by
      cases h : str_lt (line_signature b) (line_signature a) with
      | false => exact Or.inl rfl
      | true => exact Or.inr (str_lt_asymm _ _ h)⟩
  haveI : IsTrans Str (fun a b => str_lt (line_signature b) (line_signature a) = false) :=
    ⟨fun a b c h1 h2 => str_lt_false_trans _ _ _ h1 h2⟩
  exact List.sorted_insertionSort _ r

theorem sort_by_signature_eq (r1 r2 : List Str) (hp : r1.Perm r2)
    (hn : (r1.map line_signature).Nodup) :
    sort_by_signature r1 = sort_by_signature r2 := by
  refine List.Perm.eq_of_sorted ?_ (sort_by_signature_sorted r1) (sort_by_signature_sorted r2)
    (((sort_by_signature_perm r1).trans hp).trans (sort_by_signature_perm r2).symm)
  intro a b ha hb hab hba
  have ha1 : a ∈ r1 := (sort_by_signature_perm r1).mem_iff.mp ha
  have hb1 : b ∈ r1 := hp.mem_iff.mpr ((sort_by_signature_perm r2).mem_iff.mp hb)
  exact List.inj_on_of_nodup_map hn ha1 hb1 (str_lt_connected _ _ hba hab)

/-- C16 (record order is irrelevant up to line order): on two buckets of well-formed
records that are rearrangements of each other `reduce` completes, the two reports
have the same lines, and they are equal once their lines are sorted by signature. -/
theorem record_order_irrelevant (it : Iteration) (l1 l2 : List Str) (hp : l1.Perm l2)
    (h : ∀ l ∈ l1, WellFormed l) :
    ∃ r1 r2, reduce_lines it l1 = some r1 ∧ reduce_lines it l2 = some r2 ∧
      (∀ line, line ∈ r1 ↔ line ∈ r2) ∧
      sort_by_signature r1 = sort_by_signature r2 ∧
      written (sort_by_signature r1) = written (sort_by_signature r2) := by
  obtain ⟨r1, r2, h1, h2, hperm⟩ := reduce_lines_perm it l1 l2 hp h
  obtain ⟨r, hr, _, hnd⟩ := report_signatures it l1 h
  have hrr : r = r1 := Option.some.inj (hr.symm.trans h1)
  subst hrr
  have hs := sort_by_signature_eq r r2 hperm hnd
  exact ⟨r, r2, h1, h2, fun line => hperm.mem_iff, hs, by rw [hs]⟩

/-- The statement of C16 on two arrival orders of the same four records, whose reports
list their two lines in opposite orders. -/
theorem record_order_irrelevant_witness :
    List.Perm
      ["opst: stop".toList, "abt: bat".toList, "abt: tab".toList, "opst: post".toList]
      ["abt: tab".toList, "opst: post".toList, "opst: stop".toList, "abt: bat".toList] ∧
    (∀ l ∈ ["opst: stop".toList, "abt: bat".toList, "abt: tab".toList, "opst: post".toList],
      WellFormed l) ∧
    reduce_lines oldest_first
      ["opst: stop".toList, "abt: bat".toList, "abt: tab".toList, "opst: post".toList] =
      some ["opst: \x7b post, stop \x7d".toList, "abt: \x7b bat, tab \x7d".toList] ∧
    reduce_lines oldest_first
      ["abt: tab".toList, "opst: post".toList, "opst: stop".toList, "abt: bat".toList] =
      some ["abt: \x7b bat, tab \x7d".toList, "opst: \x7b post, stop \x7d".toList] ∧
    ∃ r1 r2,
      reduce_lines oldest_first
        ["opst: stop".toList, "abt: bat".toList, "abt: tab".toList, "opst: post".toList] =
        some r1 ∧
      reduce_lines oldest_first
        ["abt: tab".toList, "opst: post".toList, "opst: stop".toList, "abt: bat".toList] =
        some r2 ∧
      (∀ line, line ∈ r1 ↔ line ∈ r2) ∧
      sort_by_signature r1 = sort_by_signature r2 ∧
      written (sort_by_signature r1) = written (sort_by_signature r2) :=
  have hw : ∀ l ∈ ["opst: stop".toList, "abt: bat".toList, "abt: tab".toList,
      "opst: post".toList], WellFormed l :=
    well_formed_records
      [("opst".toList, "stop".toList), ("abt".toList, "bat".toList),
        ("abt".toList, "tab".toList), ("opst".toList, "post".toList)]
      (by decide)
  ⟨by decide, hw, by decide, by decide,
    record_order_irrelevant oldest_first _ _ (by decide) hw⟩

/-! ## The flat-layout pipeline -/

theorem shuffler_bucket_one (hash : Str → Nat) (lines : List Str)
    (h : ∀ l ∈ lines, '\n' ∉ l) :
    ∃ outputs, shuffler hash (some (written lines)) = some outputs ∧
      outputs.getD 1 [] = lines.filter (fun l => hash l % 5 = 1) := by
  have hlt : ∀ line : Str, hash line % 5 < 5 := fun line => Nat.mod_lt _ (by decide)
  have hrun : shuffler hash (some (written lines)) =
      some ((List.range fresh_outputs.length).map
        (fun i => fresh_outputs.getD i [] ++ lines.filter (fun l => hash l % 5 = i))) := by
    unfold shuffler shuffler_read_from_file
    rw [file_lines_written lines h]
    exact shuffle_loop_eq (fun line => hash line % 5) lines fresh_outputs (fun l _ => hlt l)
  refine ⟨_, hrun, ?_⟩
  simp [fresh_outputs, List.range_succ]

theorem pipeline_hash_eq (it : Iteration) (hash : Str → Nat) (src : File)
    (stop_words : List Str) :
    pipeline_hash it hash src stop_words =
      reduce_lines it
        ((mapper_read_from_file src stop_words).filter (fun l => hash l % 5 = 1)) := by
  obtain ⟨outputs, ho, h1⟩ :=
    shuffler_bucket_one hash _ (mapper_no_newline src stop_words)
  unfold pipeline_hash
  rw [ho]
  simp only [h1, reduce]
  rw [file_lines_written _ (fun l hl =>
    mapper_no_newline src stop_words l (List.mem_filter.mp hl).1)]

/-- C17 (soundness of the hash-partitioned pipeline): for every hash function, text and
stop-word list the flat-layout pipeline completes, and every line of its report names
a signature and at least two distinct members, each of them a token of the text that is
not a stop word and whose sorted letters are the signature.  Under the sample hash the
text `Listen, silent spot stop tops` gives two such groups, one without its member
`stop`, and the text `bat tab` gives none. -/
theorem hash_pipeline_sound :
    (∀ (it : Iteration) (hash : Str → Nat) (text : Str) (stop_words : List Str),
      ∃ report, pipeline_hash it hash (some text) stop_words = some report ∧
        ∀ line ∈ report, ∃ sig toks,
          line = sig ++ ": \x7b ".toList ++ List.intercalate ", ".toList toks ++
            " \x7d".toList ∧
          2 ≤ toks.length ∧ toks.Nodup ∧
          ∀ t ∈ toks, t ∈ tokens stop_words text ∧ t ∉ stop_words ∧ sort t = sig) ∧
    pipeline_hash oldest_first djb2 (some "Listen, silent spot stop tops".toList) [] =
      some ["eilnst: \x7b listen, silent \x7d".toList,
        "opst: \x7b spot, tops \x7d".toList] ∧
    pipeline_hash oldest_first djb2 (some "bat tab".toList) [] = some [] := by
  refine ⟨?_, by decide, by decide⟩
  intro it hash text stop_words
  have hsub : ∀ l ∈ (mapper_read_from_file (some text) stop_words).filter
      (fun l => hash l % 5 = 1), l ∈ mapper_read_from_file (some text) stop_words :=
    fun l hl => (List.mem_filter.mp hl).1
  have hwf : ∀ l ∈ (mapper_read_from_file (some text) stop_words).filter
      (fun l => hash l % 5 = 1), WellFormed l :=
    fun l hl => mapper_well_formed (some text) stop_words l (hsub l hl)
  obtain ⟨m, hm, hg, hh, _⟩ := reduce_read_well_formed _ hwf
  refine ⟨reduce_write it m, by rw [pipeline_hash_eq]; simp [reduce_lines, hm], ?_⟩
  intro line hline
  obtain ⟨k, s, hks, hlen, rfl⟩ := (mem_reduce_write it m hg line).mp hline
  refine ⟨k, s, rfl, hlen, ascending_nodup s (hg.asc _ hks), ?_⟩
  intro t ht
  have hrec := hsub _ ((hh k t).mp ⟨s, hks, ht⟩)
  obtain ⟨h1, h2⟩ := (record_mem_mapper text stop_words k t).mp hrec
  have h3 : t ∉ stop_words := by
    have := (List.mem_filter.mp h1).2
    simp only [decide_eq_true_eq] at this
    exact this.2
  exact ⟨h1, h3, h2⟩

/-! ## Stop words -/

theorem tokens_normalized_entries (stop_words : List Str) (text : Str) :
    tokens (normalized_entries stop_words) text = tokens stop_words text := by
  unfold tokens
  apply List.filter_congr
  intro t ht
  rw [List.mem_map] at ht
  obtain ⟨w, _, rfl⟩ := ht
  have hlow : Lowercase (normal_form w) := normalize_eq_normal_form w ▸ lowercase_normalize w
  by_cases hne : normal_form w = []
  · simp [hne]
  · have : normal_form w ∈ normalized_entries stop_words ↔ normal_form w ∈ stop_words := by
      unfold normalized_entries
      rw [List.mem_filter]
      simp [hne, hlow]
    simp [hne, this]

/-- C18 (only normalized stop words have any effect): the output of the mapper with a
stop-word list equals its output with the entries of the list that are non-empty
strings of lowercase letters; the stop-word file `the,Bat, tab` followed by a line end
is read as the three entries `the`, `Bat` and ` tab` with its line end, and only the
first of them suppresses a word of the text `The bat tab`. -/
theorem only_normalized_stop_words :
    (∀ (input : File) (stop_words : List Str),
      mapper_read_from_file input stop_words =
        mapper_read_from_file input (normalized_entries stop_words)) ∧
    read_stop_words (some "the,Bat, tab\n".toList) =
      ["the".toList, "Bat".toList, " tab\n".toList] ∧
    normalized_entries (read_stop_words (some "the,Bat, tab\n".toList)) = ["the".toList] ∧
    mapper_read_from_file (some "The bat tab".toList)
      (read_stop_words (some "the,Bat, tab\n".toList)) =
      ["abt: bat".toList, "abt: tab".toList] := by
  refine ⟨?_, by decide, by decide, by decide⟩
  intro input stop_words
  cases input with
  | none => rfl
  | some text => rw [mapper_eq, mapper_eq, tokens_normalized_entries]

/-! ## From the mapper to the reducer -/

/-- C19 (serialisation round trip): on every line the mapper writes, the parsing of the
reducer succeeds and returns the signature as key and the token as value, the key being
the text before the first colon of the line; and two lines of the mapper with the same
key and value are the same line. -/
theorem serialisation_round_trip (input : File) (stop_words : List Str) (l1 l2 : Str)
    (h1 : l1 ∈ mapper_read_from_file input stop_words)
    (h2 : l2 ∈ mapper_read_from_file input stop_words) :
    (∃ sig tok, l1 = sig ++ ": ".toList ++ tok ∧ sig = sort tok ∧ tok ≠ [] ∧
      parse_line l1 = some (sig, tok) ∧ find l1 ':' = some sig.length ∧
      l1.take sig.length = sig ∧ l1.drop (sig.length + 2) = tok) ∧
    (parse_line l1 = parse_line l2 → l1 = l2) := by
  obtain ⟨w1, rfl, hne1, _⟩ := mem_mapper input stop_words l1 h1
  obtain ⟨w2, rfl, _, _⟩ := mem_mapper input stop_words l2 h2
  have hl1 : Lowercase (normal_form w1) := normalize_eq_normal_form w1 ▸ lowercase_normalize w1
  have hl2 : Lowercase (normal_form w2) := normalize_eq_normal_form w2 ▸ lowercase_normalize w2
  have hc1 := lowercase_no_colon _ (lowercase_sort _ hl1)
  have hc2 := lowercase_no_colon _ (lowercase_sort _ hl2)
  refine ⟨⟨sort (normal_form w1), normal_form w1, rfl, rfl, hne1, parse_record _ _ hc1, ?_, ?_, ?_⟩,
    ?_⟩
  · unfold record
    rw [List.append_assoc]
    exact find_colon _ _ hc1
  · unfold record
    rw [List.append_assoc]
    exact List.take_left _ _
  · have : (sort (normal_form w1)).length + 2 =
        (sort (normal_form w1) ++ [':', ' ']).length := by simp
    rw [this]
    exact List.drop_left _ _
  · intro hp
    rw [parse_record _ _ hc1, parse_record _ _ hc2] at hp
    obtain ⟨e1, e2⟩ := Prod.mk.inj (Option.some.inj hp)
    rw [e1, e2]

/-- The statement of C19 on two lines of the mapper for the text `The bat tab`. -/
theorem serialisation_round_trip_witness :
    "abt: bat".toList ∈ mapper_read_from_file (some "The bat tab".toList) ["the".toList] ∧
    "abt: tab".toList ∈ mapper_read_from_file (some "The bat tab".toList) ["the".toList] ∧
    parse_line "abt: bat".toList = some ("abt".toList, "bat".toList) ∧
    (∃ sig tok, "abt: bat".toList = sig ++ ": ".toList ++ tok ∧ sig = sort tok ∧ tok ≠ [] ∧
      parse_line "abt: bat".toList = some (sig, tok) ∧
      find "abt: bat".toList ':' = some sig.length ∧
      ("abt: bat".toList).take sig.length = sig ∧
      ("abt: bat".toList).drop (sig.length + 2) = tok) ∧
    (parse_line "abt: bat".toList = parse_line "abt: tab".toList →
      "abt: bat".toList = "abt: tab".toList) :=
  ⟨by decide, by decide, by decide,
    serialisation_round_trip (some "The bat tab".toList) ["the".toList] "abt: bat".toList
      "abt: tab".toList (by decide) (by decide)⟩

end MapReducer
